import Mathlib

/-!
Verification development for `torun/cola0p3_at_9116/run_classifier_nni.py`.

The pruning engine (`do_sparse`, `do_sparse_chn`, `do_sparse_mh`), the rate
balancer (`balance`), the metric code (`accuracy`), and the per-step pruning
traversal of `prune_function.eval_after_train` are shallowly embedded below.
Matrices are total functions `Fin d1 → Fin d2 → ℚ` (exact rationals in place
of floats), and `torch.topk(·, k, largest=False)` along a dimension is
modelled as the stable bottom-`k` selection: an element is selected iff fewer
than `k` elements precede it in the (absolute value, position) lexicographic
order.  Position tie-breaking makes the selection a total function; torch's
tie behaviour is unspecified but deterministic, and every claim about the
selection is stated modulo ties.
-/

set_option maxHeartbeats 1000000
set_option maxRecDepth 8000
set_option linter.unusedSectionVars false
set_option linter.unusedVariables false

/-- Python `int(q)`: truncation toward zero, as applied to the float
`ratio * d1` in `do_sparse` and friends. -/
def pyInt (q : ℚ) : ℤ := if 0 ≤ q then ⌊q⌋ else -⌊-q⌋

/-- The bottom-`k` count `k = int(ratio * float(d1))` computed by each of
`do_sparse` (line 603), `do_sparse_chn` (line 618), `do_sparse_mh` (line 636),
where `d1` is the size of the dimension the top-k runs over. -/
def kOf (ratio : ℚ) (n : ℕ) : ℤ := pyInt (ratio * n)

section BottomK

variable {α : Type} [Fintype α] [DecidableEq α]

/-- Strict lexicographic order on (value, position) keys: this is the order in
which a stable ascending sort by value enumerates the elements, hence the
order underlying `torch.topk(·, k, largest=False)` with positional
tie-breaking. -/
def keyLt (f : α → ℚ) (t : α → ℕ) (a b : α) : Prop :=
  f a < f b ∨ (f a = f b ∧ t a < t b)

instance (f : α → ℚ) (t : α → ℕ) (a b : α) : Decidable (keyLt f t a b) := by
  unfold keyLt; exact inferInstance

/-- Number of elements strictly preceding `x` in the stable order. -/
def rank (f : α → ℚ) (t : α → ℕ) (x : α) : ℕ :=
  (Finset.univ.filter (fun y => keyLt f t y x)).card

/-- Membership in the bottom-`k` set returned by
`torch.topk(·, k, largest=False)`: fewer than `k` elements precede `x`. -/
def bottomSel (f : α → ℚ) (t : α → ℕ) (k : ℕ) (x : α) : Prop :=
  rank f t x < k

instance (f : α → ℚ) (t : α → ℕ) (k : ℕ) (x : α) : Decidable (bottomSel f t k x) := by
  unfold bottomSel rank; exact inferInstance

end BottomK

/-! ## The Weight Pruning Engine

`do_sparse` (lines 586-612), `do_sparse_chn` (lines 614-629) and
`do_sparse_mh` (lines 631-648) of `run_classifier_nni.py`.  Each takes the
prune fraction `ratio` (the orchestrator passes `1 - prune_rate[slot]`, so
`ratio = 1 - keepRatio`).  The in-place tensor mutation
`model.state_dict()[param_tensor] = w` is embedded by returning the new
matrix value. -/

/-- A `d1 × d2` weight matrix of exact rationals. -/
abbrev Mat (d1 d2 : ℕ) : Type := Fin d1 → Fin d2 → ℚ

/-- Row-major flattened position of entry `(i, j)`, the order produced by
`w.reshape(-1,1)`. -/
def flatIdx {d1 d2 : ℕ} (p : Fin d1 × Fin d2) : ℕ := p.1.val * d2 + p.2.val

/-- Selection of `do_sparse`: bottom `k = int(ratio * d1*d2)` entries of the
flattened matrix by absolute value (`torch.topk(w.abs(), k, largest=False,
dim=0)` on the `(d1*d2, 1)` reshape), ties by flattened position. -/
def vSel {d1 d2 : ℕ} (w : Mat d1 d2) (ratio : ℚ) (p : Fin d1 × Fin d2) : Prop :=
  bottomSel (fun q : Fin d1 × Fin d2 => |w q.1 q.2|) flatIdx ((kOf ratio (d1 * d2)).toNat) p

instance {d1 d2 : ℕ} (w : Mat d1 d2) (ratio : ℚ) (p : Fin d1 × Fin d2) :
    Decidable (vSel w ratio p) := by
  unfold vSel; exact inferInstance

/-- Vanilla pruning, `do_sparse` (lines 598-612): reshape to a column,
zero the bottom-`k` entries by absolute value via `scatter_`, reshape back. -/
def do_sparse {d1 d2 : ℕ} (w : Mat d1 d2) (ratio : ℚ) : Mat d1 d2 :=
  fun i j => if vSel w ratio (i, j) then 0 else w i j

/-- Per-row aggregate magnitude `w.abs().sum(dim=1)` (line 621). -/
def absRowSum {d1 d2 : ℕ} (w : Mat d1 d2) (i : Fin d1) : ℚ :=
  ∑ j : Fin d2, |w i j|

/-- Selection of `do_sparse_chn`: the replicated row-sum matrix
`torch.cat([w.abs().sum(dim=1,keepdim=True)]*d2, 1)` has identical columns,
so its per-column bottom-`k` along dim 0 selects in every column the same
`k = int(ratio * d1)` rows of smallest absolute row sum, ties by row index. -/
def cSel {d1 d2 : ℕ} (w : Mat d1 d2) (ratio : ℚ) (i : Fin d1) : Prop :=
  bottomSel (absRowSum w) Fin.val ((kOf ratio d1).toNat) i

instance {d1 d2 : ℕ} (w : Mat d1 d2) (ratio : ℚ) (i : Fin d1) :
    Decidable (cSel w ratio i) := by
  unfold cSel; exact inferInstance

/-- Channel pruning, `do_sparse_chn` (lines 614-629): zero every entry of the
`k` rows of smallest absolute row sum. -/
def do_sparse_chn {d1 d2 : ℕ} (w : Mat d1 d2) (ratio : ℚ) : Mat d1 d2 :=
  fun i j => if cSel w ratio i then 0 else w i j

/-! ### Multi-head pruning

`do_sparse_mh` (lines 631-648) starts with `w.reshape(12, 64*768)` of the
`768 × 768` matrix, so head `h`, view-column `c` holds the original entry at
row-major flat position `h * 49152 + c`. -/

/-- The `w.reshape(12, 64*768)` view (line 632). -/
def toMH (w : Mat 768 768) : Mat 12 49152 :=
  fun h c => w ⟨(h.val * 49152 + c.val) / 768, by
      have := h.isLt; have := c.isLt; omega⟩
    ⟨(h.val * 49152 + c.val) % 768, by omega⟩

/-- The final `w.reshape(768, 768)` back from the head view (line 646). -/
def fromMH (v : Mat 12 49152) : Mat 768 768 :=
  fun i j => v ⟨(i.val * 768 + j.val) / 49152, by
      have := i.isLt; have := j.isLt; omega⟩
    ⟨(i.val * 768 + j.val) % 49152, by omega⟩

/-- The boolean selection tensor `indices` of `do_sparse_mh`:
`torch.topk(w.abs(), k, largest=False, dim=0)` on the `12 × 49152` view runs
independently down each column, selecting in column `c` the `k` entries (out
of the 12 head slots) of smallest absolute value, ties by head index.  Note
this is a per-column selection, not a whole-head-row selection. -/
def mhSel (v : Mat 12 49152) (k : ℕ) : Fin 12 → Fin 49152 → Bool :=
  fun h c => decide (bottomSel (fun hh : Fin 12 => |v hh c|) Fin.val k h)

/-- The `scatter_` of zeros at the selected positions (line 645). -/
def mhMask (sel : Fin 12 → Fin 49152 → Bool) (v : Mat 12 49152) : Mat 12 49152 :=
  fun h c => if sel h c then 0 else v h c

/-- Multi-head pruning, `do_sparse_mh` (lines 631-648): reshape to
`12 × 49152`, compute the per-column bottom-`k = int(ratio * 12)` selection
unless a shared `indices` tensor is supplied, zero the selected positions,
reshape back, and return the selection for reuse on the paired matrices. -/
def do_sparse_mh (w : Mat 768 768) (ratio : ℚ) (indices : Option (Fin 12 → Fin 49152 → Bool)) :
    Mat 768 768 × (Fin 12 → Fin 49152 → Bool) :=
  let v := toMH w
  let sel := match indices with
    | some s => s
    | none => mhSel v ((kOf ratio 12).toNat)
  (fromMH (mhMask sel v), sel)

/-- Modelled from the spec: what §4.1 of the specification claims MultiHead
mode does — rank the 12 head-rows of the `12 × 49152` view by aggregate
magnitude using the same rule as Channel pruning over 12 pseudo-rows, and
zero the `k` whole head-rows of smallest aggregate.  Stated only to be
compared against `do_sparse_mh`, which the source defines differently. -/
def do_sparse_mh_specRows (w : Mat 768 768) (ratio : ℚ) : Mat 768 768 :=
  let v := toMH w
  fromMH (fun h c =>
    if bottomSel (absRowSum v) Fin.val ((kOf ratio 12).toNat) h then 0 else v h c)

/-! ### Failure conditions

The Python functions contain no explicit validation; the failures the spec
names arise from the torch primitives themselves: `reshape` raises when the
element count does not match (`do_sparse_mh`, line 632), and `topk` raises
when `k` is negative or exceeds the size of the dimension it runs over.  The
checked wrappers below make those failure conditions explicit; on success
they return exactly the corresponding total function's value. -/

inductive PruneErr : Type
  /-- `w.reshape(12, 64*768)` raised: element count mismatch. -/
  | shapeMismatch : PruneErr
  /-- `torch.topk(·, k, ·)` raised: `k` outside `[0, dim]`. -/
  | invalidK : PruneErr
deriving DecidableEq

/-- Row-major flat view of an arbitrary matrix, as `reshape` sees it. -/
def flatten {d1 d2 : ℕ} (w : Mat d1 d2) : Fin (d1 * d2) → ℚ :=
  fun f =>
    have hd2 : 0 < d2 := by
      have hpos : 0 < d1 * d2 := lt_of_le_of_lt (Nat.zero_le _) f.isLt
      rcases Nat.eq_zero_or_pos d2 with h | h
      · subst h; simp at hpos
      · exact h
    w ⟨f.val / d2, Nat.div_lt_of_lt_mul (by
        have hf := f.isLt
        rw [Nat.mul_comm d2 d1]
        exact hf)⟩
      ⟨f.val % d2, Nat.mod_lt _ hd2⟩

/-- `do_sparse` with the `topk` failure condition explicit. -/
def do_sparse_checked {d1 d2 : ℕ} (w : Mat d1 d2) (ratio : ℚ) :
    Except PruneErr (Mat d1 d2) :=
  if 0 ≤ kOf ratio (d1 * d2) ∧ kOf ratio (d1 * d2) ≤ ((d1 * d2 : ℕ) : ℤ) then
    Except.ok (do_sparse w ratio)
  else Except.error PruneErr.invalidK

/-- `do_sparse_chn` with the `topk` failure condition explicit. -/
def do_sparse_chn_checked {d1 d2 : ℕ} (w : Mat d1 d2) (ratio : ℚ) :
    Except PruneErr (Mat d1 d2) :=
  if 0 ≤ kOf ratio d1 ∧ kOf ratio d1 ≤ ((d1 : ℕ) : ℤ) then
    Except.ok (do_sparse_chn w ratio)
  else Except.error PruneErr.invalidK

/-- `do_sparse_mh` on an arbitrary-shape input, with the `reshape` and `topk`
failure conditions explicit.  The reshape succeeds iff the element count is
exactly `12 * (64 * 768)`; `topk` only runs when no shared `indices` tensor
is supplied. -/
def do_sparse_mh_checked {d1 d2 : ℕ} (w : Mat d1 d2) (ratio : ℚ)
    (indices : Option (Fin 12 → Fin 49152 → Bool)) :
    Except PruneErr (Mat 768 768 × (Fin 12 → Fin 49152 → Bool)) :=
  if hsh : d1 * d2 = 12 * (64 * 768) then
    let v : Mat 12 49152 := fun h c =>
      flatten w ⟨h.val * 49152 + c.val, by have := h.isLt; have := c.isLt; omega⟩
    match indices with
    | some s => Except.ok (fromMH (mhMask s v), s)
    | none =>
      if 0 ≤ kOf ratio 12 ∧ kOf ratio 12 ≤ ((12 : ℕ) : ℤ) then
        Except.ok (fromMH (mhMask (mhSel v ((kOf ratio 12).toNat)) v),
          mhSel v ((kOf ratio 12).toNat))
      else Except.error PruneErr.invalidK
  else Except.error PruneErr.shapeMismatch

/-! ## The Rate Balancer

`balance` (lines 1115-1125 of `run_classifier_nni.py`), hardcoded to the 48
flat slots of the 12-layer reference model. -/

/-- `whole_param[i % 4]` (line 1117): nominal parameter count of flat slot
`i`, cycling through QKV triple, attention output, intermediate, output. -/
def wholeParam (i : ℕ) : ℚ :=
  if i % 4 = 0 then 768 * 768 * 3
  else if i % 4 = 1 then 768 * 768
  else if i % 4 = 2 then 768 * 3072
  else 3072 * 768

/-- The parameter-count-weighted mean of a 48-slot rate vector: the value of
`rate_all` after line 1122 (`rate_all /= rate_one`). -/
def wmean (prune_rate : Fin 48 → ℚ) : ℚ :=
  (∑ i : Fin 48, prune_rate i * wholeParam i.val) / (∑ i : Fin 48, wholeParam i.val)

/-- `balance(prune_rate, ratio)` (lines 1115-1125): rescale every rate by
`ratio / weightedMean`.  The in-place list update reads `prune_rate[i]` only
at the index being written, so the functional form is equivalent. -/
def balance (prune_rate : Fin 48 → ℚ) (ratio : ℚ) : Fin 48 → ℚ :=
  fun i => prune_rate i / wmean prune_rate * ratio

/-! ## The Metric Engine

`accuracy` (lines 568-575): predictions are `np.argmax(out, axis=1)` over
2-class logits; returns the correct count and the Matthews-style correlation
`mc = (tp*tn - fp*fn) / ((tp+fp)*(tp+fn)*(tn+fp)*(tn+fn))**0.5`.  The float
`mc` is represented exactly by the integer pair (numerator, squared
denominator): the quotient is `num / sqrt(denomSq)`, and it is NaN exactly
when `denomSq = 0` (in that degenerate case `num = 0` as well, see
`mcNum_eq_zero_of_denom_eq_zero`, so the float computation is `0.0/0.0`,
which numpy evaluates to NaN with only a warning). -/

/-- `np.argmax(out, axis=1)` over 2-class logit rows: index 1 iff the second
logit is strictly larger (argmax returns the first index of the maximum). -/
def predsOf (out : List (ℚ × ℚ)) : List ℤ :=
  out.map (fun l => if l.1 < l.2 then 1 else 0)

/-- `tp = (outputs*labels).sum()` (line 570). -/
def tpOf (os labels : List ℤ) : ℤ :=
  ((os.zip labels).map (fun p => p.1 * p.2)).sum

/-- `tn = ((1-outputs)*(1-labels)).sum()` (line 571). -/
def tnOf (os labels : List ℤ) : ℤ :=
  ((os.zip labels).map (fun p => (1 - p.1) * (1 - p.2))).sum

/-- `fp = (outputs*(1-labels)).sum()` (line 572). -/
def fpOf (os labels : List ℤ) : ℤ :=
  ((os.zip labels).map (fun p => p.1 * (1 - p.2))).sum

/-- `fn = ((1-outputs)*labels).sum()` (line 573). -/
def fnOf (os labels : List ℤ) : ℤ :=
  ((os.zip labels).map (fun p => (1 - p.1) * p.2)).sum

/-- `np.sum(outputs == labels)` (line 575). -/
def nCorrect (os labels : List ℤ) : ℕ :=
  ((os.zip labels).filter (fun p => p.1 == p.2)).length

/-- `accuracy(out, labels)` (lines 568-575): the correct-prediction count and
the Matthews correlation as the exact pair (numerator, squared denominator). -/
def accuracy (out : List (ℚ × ℚ)) (labels : List ℤ) : ℕ × (ℤ × ℤ) :=
  let os := predsOf out
  (nCorrect os labels,
    (tpOf os labels * tnOf os labels - fpOf os labels * fnOf os labels,
     (tpOf os labels + fpOf os labels) * (tpOf os labels + fnOf os labels) *
       (tnOf os labels + fpOf os labels) * (tnOf os labels + fnOf os labels)))

/-- The float `num / sqrt(denomSq)` equals `1.0` exactly when the numerator
is positive and its square is the squared denominator. -/
def mcEqOne (p : ℤ × ℤ) : Prop := 0 < p.1 ∧ p.1 ^ 2 = p.2

/-! ### The per-epoch evaluation loop

Lines 968-997 of `prune_function.eval_after_train`: `accuracy` is called once
per evaluation batch; `eval_accuracy` accumulates the integer correct counts
and is divided by `nb_eval_examples` (the total example count, accumulated as
`input_ids.size(0)` per batch), while `eval_mc` accumulates the per-batch
float Matthews values and is divided by `nb_eval_steps` (the batch count).
The per-batch float `mc = num / denomSq**0.5` is an irrational real in
general, so the float accumulation is idealized over `ℝ` (with `Option`
`none` for NaN, which float addition and division propagate); these
real-valued definitions are specifications only and are never evaluated. -/

/-- The real value of the float `mc` returned by `accuracy` for one batch:
`num / sqrt(denomSq)` when the squared denominator is nonzero, NaN (`none`)
when it is zero (the numerator is 0 then as well, so the float computation is
`0.0/0.0`, which numpy evaluates to NaN with only a warning). -/
noncomputable def mcReal (p : ℤ × ℤ) : Option ℝ :=
  if p.2 = 0 then none else some ((p.1 : ℝ) / Real.sqrt (p.2 : ℝ))

/-- Float addition with NaN propagation: a NaN addend poisons the sum. -/
def optAdd (a b : Option ℝ) : Option ℝ :=
  match a, b with
  | some x, some y => some (x + y)
  | _, _ => none

/-- `eval_accuracy` accumulation before the division (lines 986, 989):
the total correct-prediction count over all batches. -/
def epochCorrect (batches : List (List (ℚ × ℚ) × List ℤ)) : ℕ :=
  (batches.map (fun b => (accuracy b.1 b.2).1)).sum

/-- `nb_eval_examples` (line 992): total example count over all batches. -/
def epochExamples (batches : List (List (ℚ × ℚ) × List ℤ)) : ℕ :=
  (batches.map (fun b => b.1.length)).sum

/-- `eval_accuracy = eval_accuracy / nb_eval_examples` (line 996). -/
def epochAccuracy (batches : List (List (ℚ × ℚ) × List ℤ)) : ℚ :=
  (epochCorrect batches : ℚ) / (epochExamples batches : ℚ)

/-- `eval_mc`: the sum of the per-batch Matthews floats divided by
`nb_eval_steps` (lines 990, 997); `none` is NaN, which propagates through
both the sum and the division. -/
noncomputable def epochMC (batches : List (List (ℚ × ℚ) × List ℤ)) : Option ℝ :=
  ((batches.map (fun b => mcReal (accuracy b.1 b.2).2)).foldl optAdd (some 0)).map
    (fun s => s / (batches.length : ℝ))

/-- Lines 1001-1002 applied to the real-valued epoch mean: NaN becomes 0. -/
def sanitizeMCReal (mc : Option ℝ) : ℝ :=
  match mc with
  | none => 0
  | some q => q

/-! ## Epoch scoring and best-score tracking

Lines 995-1013 of `prune_function.eval_after_train`.  The per-epoch raw
Matthews mean is a float that is NaN exactly when degenerate, modelled as
`Option ℚ` with `none` for NaN. -/

/-- Lines 1001-1002: `if eval_mc != eval_mc: eval_mc = 0` — NaN (the only
float unequal to itself) is replaced by 0; any ordinary value passes
through. -/
def sanitizeMC (mc : Option ℚ) : ℚ :=
  match mc with
  | none => 0
  | some q => q

/-- Lines 1003-1004: for the cola task the epoch score becomes the sanitized
Matthews correlation, otherwise it stays the accuracy. -/
def epochScore (taskIsCola : Bool) (acc : ℚ) (mc : Option ℚ) : ℚ :=
  if taskIsCola then sanitizeMC mc else acc

/-- Lines 880, 1005-1006, 1013: `best_acc` starts at 0, each epoch updates it
by `if eval_accuracy > best_acc: best_acc = eval_accuracy`, and
`eval_after_train` returns the final `best_acc`. -/
def bestAccRun (scores : List ℚ) : ℚ :=
  scores.foldl (fun best s => if best < s then s else best) 0

/-! ## The per-step pruning traversal

Lines 926-959 of `prune_function.eval_after_train`: after every training
step, for each of the 12 layers, the four flat slots `layer*4 + 0..3` are
pruned in order according to `prune_type`/`prune_rate` (slot 0 covers the
QKV triple; for multihead the Value selection is computed first and reused
for Query and Key).  Each `do_sparse*` call receives the prune fraction
`1 - prune_rate[slot]`. -/

structure LayerMats : Type where
  /-- `attention.self.query.weight` -/
  query : Mat 768 768
  /-- `attention.self.key.weight` -/
  key : Mat 768 768
  /-- `attention.self.value.weight` -/
  value : Mat 768 768
  /-- `attention.output.dense.weight` -/
  attnOut : Mat 768 768
  /-- `intermediate.dense.weight` -/
  inter : Mat 3072 768
  /-- `output.dense.weight` -/
  outp : Mat 768 3072

/-- Lines 933-944: slot `l*4 + 0`, the QKV triple. -/
def pruneSlot0 (pt : ℕ → String) (pr : ℕ → ℚ) (l : ℕ) (m : LayerMats) : LayerMats :=
  if pt (l * 4 + 0) = "vanilla" then
    { m with query := do_sparse m.query (1 - pr (l * 4 + 0)),
             key := do_sparse m.key (1 - pr (l * 4 + 0)),
             value := do_sparse m.value (1 - pr (l * 4 + 0)) }
  else if pt (l * 4 + 0) = "channel" then
    { m with query := do_sparse_chn m.query (1 - pr (l * 4 + 0)),
             key := do_sparse_chn m.key (1 - pr (l * 4 + 0)),
             value := do_sparse_chn m.value (1 - pr (l * 4 + 0)) }
  else if pt (l * 4 + 0) = "multihead" then
    let pv := do_sparse_mh m.value (1 - pr (l * 4 + 0)) none
    let pq := do_sparse_mh m.query (1 - pr (l * 4 + 0)) (some pv.2)
    let pk := do_sparse_mh m.key (1 - pr (l * 4 + 0)) (some pv.2)
    { m with query := pq.1, key := pk.1, value := pv.1 }
  else m

/-- Lines 945-948: slot `l*4 + 1`, the attention output projection. -/
def pruneSlot1 (pt : ℕ → String) (pr : ℕ → ℚ) (l : ℕ) (m : LayerMats) : LayerMats :=
  if pt (l * 4 + 1) = "vanilla" then
    { m with attnOut := do_sparse m.attnOut (1 - pr (l * 4 + 1)) }
  else if pt (l * 4 + 1) = "channel" then
    { m with attnOut := do_sparse_chn m.attnOut (1 - pr (l * 4 + 1)) }
  else m

/-- Lines 949-952: slot `l*4 + 2`, the intermediate projection. -/
def pruneSlot2 (pt : ℕ → String) (pr : ℕ → ℚ) (l : ℕ) (m : LayerMats) : LayerMats :=
  if pt (l * 4 + 2) = "vanilla" then
    { m with inter := do_sparse m.inter (1 - pr (l * 4 + 2)) }
  else if pt (l * 4 + 2) = "channel" then
    { m with inter := do_sparse_chn m.inter (1 - pr (l * 4 + 2)) }
  else m

/-- Lines 953-956: slot `l*4 + 3`, the output projection.  Note the source
compares against the string `"chn"` here, unlike slots 0-2 which use
`"channel"`. -/
def pruneSlot3 (pt : ℕ → String) (pr : ℕ → ℚ) (l : ℕ) (m : LayerMats) : LayerMats :=
  if pt (l * 4 + 3) = "vanilla" then
    { m with outp := do_sparse m.outp (1 - pr (l * 4 + 3)) }
  else if pt (l * 4 + 3) = "chn" then
    { m with outp := do_sparse_chn m.outp (1 - pr (l * 4 + 3)) }
  else m

/-- One layer's pruning pass (lines 926-956): the four slots in increasing
flat-index order. -/
def pruneLayerStep (pt : ℕ → String) (pr : ℕ → ℚ) (l : ℕ) (m : LayerMats) : LayerMats :=
  pruneSlot3 pt pr l (pruneSlot2 pt pr l (pruneSlot1 pt pr l (pruneSlot0 pt pr l m)))

/-- The whole per-step traversal over the 12 layers.  The Python loop
`for layer_now in range(layer_num)` runs sequentially, but distinct layers
own disjoint tensors, so the sequential loop equals this per-layer map. -/
def pruneModelStep (pt : ℕ → String) (pr : ℕ → ℚ) (model : Fin 12 → LayerMats) :
    Fin 12 → LayerMats :=
  fun l => pruneLayerStep pt pr l.val (model l)

/-! ## Python object semantics for `eval_after_train`

`prune_function.__init__` stores the loaded model in `self.model` (line 819);
`eval_after_train` begins with `model = copy.deepcopy(self.model)` (line 838)
and every subsequent weight mutation targets `model`.  References are
embedded as indices into a heap of model values: `deepcopy` allocates a fresh
cell holding a copy of the referenced value, and the training steps
(forward/backward/optimizer/pruning, opaque here) each rewrite the copy's
cell in place. -/

structure PHeap (α : Type) : Type where
  store : List α

/-- Dereference, with a default for invalid references (never hit in the
verified scenario). -/
def readRefD {α : Type} [Inhabited α] (h : PHeap α) (r : ℕ) : α :=
  h.store.getD r default

/-- In-place mutation of the referenced object. -/
def writeRef {α : Type} (h : PHeap α) (r : ℕ) (a : α) : PHeap α :=
  ⟨h.store.set r a⟩

/-- `copy.deepcopy` (line 838): allocate a fresh cell with a copy of the
referenced value, returning the new heap and the fresh reference. -/
def deepcopyRef {α : Type} [Inhabited α] (h : PHeap α) (r : ℕ) : PHeap α × ℕ :=
  (⟨h.store ++ [readRefD h r]⟩, h.store.length)

/-- `eval_after_train`'s effect on the model store: deep-copy `self.model`,
then run every training-step mutation against the copy only (no statement of
the method writes through `self.model`), returning the final heap and the
copy's reference. -/
def eval_after_train_model {α : Type} [Inhabited α] (h : PHeap α) (selfModel : ℕ)
    (steps : List (α → α)) : PHeap α × ℕ :=
  let hc := deepcopyRef h selfModel
  (steps.foldl (fun hh f => writeRef hh hc.2 (f (readRefD hh hc.2))) hc.1, hc.2)

/-! ## Remaining concrete inputs used by the claims -/

/-- All-ones matrix (the spec's end-to-end Vanilla scenario). -/
def onesMat (d1 d2 : ℕ) : Mat d1 d2 := fun _ _ => 1

/-- Head view of the C1 counterexample matrix: head `h` holds value `h`
everywhere except view-column 1, which holds `11 - h`.  Aggregate head
magnitudes are strictly increasing in `h`, while column 1 ranks the heads in
the opposite order. -/
def vX : Mat 12 49152 :=
  fun h c => if c.val = 1 then (11 - (h.val : ℚ)) else (h.val : ℚ)

/-- The C1 counterexample matrix in its original `768 × 768` shape. -/
def wX : Mat 768 768 := fromMH vX

theorem kOf_eq_floor {ratio : ℚ} (n : ℕ) (h : 0 ≤ ratio) :
    kOf ratio n = ⌊ratio * n⌋ := by
  unfold kOf pyInt
  exact if_pos (mul_nonneg h (Nat.cast_nonneg n))

theorem kOf_toNat_le {ratio : ℚ} (n : ℕ) (h0 : 0 ≤ ratio) (h1 : ratio < 1) :
    (kOf ratio n).toNat ≤ n := by
  rw [kOf_eq_floor n h0, Int.toNat_le]
  calc ⌊ratio * n⌋ ≤ ⌊(n : ℚ)⌋ := by
        apply Int.floor_le_floor
        calc ratio * n ≤ 1 * n := by
              apply mul_le_mul_of_nonneg_right (le_of_lt h1) (Nat.cast_nonneg n)
          _ = n := one_mul _
    _ = n := Int.floor_natCast n

theorem kOf_nonneg {ratio : ℚ} (n : ℕ) (h0 : 0 ≤ ratio) : 0 ≤ kOf ratio n := by
  rw [kOf_eq_floor n h0]
  exact Int.floor_nonneg.mpr (mul_nonneg h0 (Nat.cast_nonneg n))

theorem kOf_le {ratio : ℚ} (n : ℕ) (h0 : 0 ≤ ratio) (h1 : ratio < 1) :
    kOf ratio n ≤ ((n : ℕ) : ℤ) := by
  rw [kOf_eq_floor n h0]
  calc ⌊ratio * n⌋ ≤ ⌊(n : ℚ)⌋ := by
        apply Int.floor_le_floor
        calc ratio * n ≤ 1 * n := by
              apply mul_le_mul_of_nonneg_right (le_of_lt h1) (Nat.cast_nonneg n)
          _ = n := one_mul _
    _ = n := Int.floor_natCast n

section BottomKFacts

variable {α : Type} [Fintype α] [DecidableEq α]

theorem keyLt_irrefl (f : α → ℚ) (t : α → ℕ) (a : α) : ¬ keyLt f t a a := by
  simp [keyLt]

theorem keyLt_trans {f : α → ℚ} {t : α → ℕ} {a b c : α}
    (h1 : keyLt f t a b) (h2 : keyLt f t b c) : keyLt f t a c := by
  rcases h1 with h1 | ⟨he1, ht1⟩ <;> rcases h2 with h2 | ⟨he2, ht2⟩
  · exact Or.inl (lt_trans h1 h2)
  · exact Or.inl (he2 ▸ h1)
  · exact Or.inl (he1 ▸ h2)
  · exact Or.inr ⟨he1.trans he2, lt_trans ht1 ht2⟩

theorem keyLt_total {f : α → ℚ} {t : α → ℕ} (ht : Function.Injective t)
    {a b : α} (hne : a ≠ b) : keyLt f t a b ∨ keyLt f t b a := by
  rcases lt_trichotomy (f a) (f b) with h | h | h
  · exact Or.inl (Or.inl h)
  · rcases Nat.lt_or_ge (t a) (t b) with h2 | h2
    · exact Or.inl (Or.inr ⟨h, h2⟩)
    · rcases Nat.lt_or_ge (t b) (t a) with h3 | h3
      · exact Or.inr (Or.inr ⟨h.symm, h3⟩)
      · exact absurd (ht (Nat.le_antisymm h3 h2)) hne
  · exact Or.inr (Or.inl h)

theorem rank_lt_card (f : α → ℚ) (t : α → ℕ) [Nonempty α] (x : α) :
    rank f t x < Fintype.card α := by
  rw [← Finset.card_univ]
  apply Finset.card_lt_card
  rw [Finset.ssubset_iff_of_subset (Finset.filter_subset _ _)]
  exact ⟨x, Finset.mem_univ x, by simp [keyLt_irrefl]⟩

theorem rank_lt_rank {f : α → ℚ} {t : α → ℕ} {a b : α}
    (hab : keyLt f t a b) : rank f t a < rank f t b := by
  apply Finset.card_lt_card
  rw [Finset.ssubset_iff_of_subset]
  · refine ⟨a, ?_, ?_⟩
    · simp only [Finset.mem_filter, Finset.mem_univ, true_and]; exact hab
    · simp only [Finset.mem_filter, Finset.mem_univ, true_and]
      exact keyLt_irrefl f t a
  · intro y hy
    simp only [Finset.mem_filter, Finset.mem_univ, true_and] at hy ⊢
    exact keyLt_trans hy hab

theorem rank_inj {f : α → ℚ} {t : α → ℕ} (ht : Function.Injective t)
    {a b : α} (h : rank f t a = rank f t b) : a = b := by
  by_contra hne
  rcases keyLt_total ht hne with hlt | hlt
  · exact absurd h (ne_of_lt (rank_lt_rank hlt))
  · exact absurd h.symm (ne_of_lt (rank_lt_rank hlt))

theorem card_fin_filter_lt (n k : ℕ) :
    ((Finset.univ : Finset (Fin n)).filter (fun j => j.val < k)).card = min k n := by
  rcases le_total k n with h | h
  · have hcard : ((Finset.univ : Finset (Fin n)).filter (fun j => j.val < k)).card =
        (Finset.range k).card := by
      apply Finset.card_bij (fun (j : Fin n) _ => j.val)
      · intro a ha
        simp only [Finset.mem_filter, Finset.mem_univ, true_and] at ha
        exact Finset.mem_range.mpr ha
      · intro a1 h1 a2 h2 he
        exact Fin.ext he
      · intro b hb
        have hbk : b < k := Finset.mem_range.mp hb
        exact ⟨⟨b, lt_of_lt_of_le hbk h⟩, by simp [hbk], rfl⟩
    rw [hcard, Finset.card_range, min_eq_left h]
  · rw [min_eq_right h]
    rw [Finset.filter_true_of_mem (fun j _ => lt_of_lt_of_le j.isLt h)]
    simp

theorem card_bottomSel (f : α → ℚ) (t : α → ℕ) (ht : Function.Injective t) (k : ℕ) :
    (Finset.univ.filter (fun x => bottomSel f t k x)).card = min k (Fintype.card α) := by
  rcases isEmpty_or_nonempty α with hα | hα
  · simp [Finset.filter_eq_empty_iff]
  set n := Fintype.card α with hn
  have hρinj : Function.Injective (fun x => (⟨rank f t x, rank_lt_card f t x⟩ : Fin n)) := by
    intro a b hab
    exact rank_inj ht (congrArg Fin.val hab)
  have hbij : Function.Bijective (fun x => (⟨rank f t x, rank_lt_card f t x⟩ : Fin n)) := by
    rw [Fintype.bijective_iff_injective_and_card]
    exact ⟨hρinj, by simp [hn]⟩
  rw [← card_fin_filter_lt n k]
  apply Finset.card_bij (fun a _ => (⟨rank f t a, rank_lt_card f t a⟩ : Fin n))
  · intro a ha
    simp only [Finset.mem_filter, Finset.mem_univ, true_and] at ha ⊢
    exact ha
  · intro a1 h1 a2 h2 he
    exact hρinj he
  · intro b hb
    simp only [Finset.mem_filter, Finset.mem_univ, true_and] at hb
    obtain ⟨a, ha⟩ := hbij.2 b
    refine ⟨a, ?_, ha⟩
    simp only [Finset.mem_filter, Finset.mem_univ, true_and, bottomSel]
    have : rank f t a = b.val := congrArg Fin.val ha
    omega

theorem card_not_bottomSel (f : α → ℚ) (t : α → ℕ) (ht : Function.Injective t) (k : ℕ) :
    (Finset.univ.filter (fun x => ¬ bottomSel f t k x)).card =
      Fintype.card α - min k (Fintype.card α) := by
  have hsum : (Finset.univ.filter (fun x => bottomSel f t k x)).card +
      (Finset.univ.filter (fun x => ¬ bottomSel f t k x)).card =
      (Finset.univ : Finset α).card :=
    Finset.filter_card_add_filter_neg_card_eq_card _
  rw [card_bottomSel f t ht k, Finset.card_univ] at hsum
  omega

theorem bottomSel_le {f : α → ℚ} {t : α → ℕ} {k : ℕ} {x y : α}
    (hx : bottomSel f t k x) (hy : ¬ bottomSel f t k y) : f x ≤ f y := by
  by_contra h
  push_neg at h
  exact hy (lt_trans (rank_lt_rank (Or.inl h)) hx)

/-- Core idempotence fact: if every element of the first bottom-`k` selection
has been zeroed (made to have second-round value 0, with all second-round
values nonnegative), then every element of the second bottom-`k` selection
already has value 0. -/
theorem bottomSel_zero (f1 f2 : α → ℚ) {t : α → ℕ} (ht : Function.Injective t) (k : ℕ)
    (h0 : ∀ x, 0 ≤ f2 x) (hz : ∀ x, bottomSel f1 t k x → f2 x = 0) :
    ∀ p, bottomSel f2 t k p → f2 p = 0 := by
  intro p hp
  by_contra hne
  have hpos : 0 < f2 p := lt_of_le_of_ne (h0 p) (Ne.symm hne)
  have hsub : Finset.univ.filter (fun x => bottomSel f1 t k x) ⊆
      Finset.univ.filter (fun y => keyLt f2 t y p) := by
    intro q hq
    simp only [Finset.mem_filter, Finset.mem_univ, true_and] at hq ⊢
    exact Or.inl (by rw [hz q hq]; exact hpos)
  have h1 : min k (Fintype.card α) ≤ rank f2 t p := by
    rw [← card_bottomSel f1 t ht k]
    exact Finset.card_le_card hsub
  have hα : Nonempty α := ⟨p⟩
  have h2 := rank_lt_card f2 t p
  have h3 : rank f2 t p < k := hp
  rcases min_cases k (Fintype.card α) with ⟨hmin, _⟩ | ⟨hmin, _⟩ <;> omega

end BottomKFacts

theorem flatIdx_inj {d1 d2 : ℕ} : Function.Injective (@flatIdx d1 d2) := by
  rintro ⟨a1, a2⟩ ⟨b1, b2⟩ h
  unfold flatIdx at h
  simp only at h
  have ha2 := a2.isLt
  have hb2 := b2.isLt
  have h1 : a1.val = b1.val := by
    by_contra hne
    rcases Nat.lt_or_ge a1.val b1.val with hlt | hge
    · have hstep : a1.val * d2 + a2.val < b1.val * d2 + b2.val := by
        calc a1.val * d2 + a2.val < a1.val * d2 + d2 := by omega
          _ = (a1.val + 1) * d2 := by ring
          _ ≤ b1.val * d2 := mul_le_mul_right' (by omega) d2
          _ ≤ b1.val * d2 + b2.val := Nat.le_add_right _ _
      omega
    · have hlt : b1.val < a1.val := by omega
      have hstep : b1.val * d2 + b2.val < a1.val * d2 + a2.val := by
        calc b1.val * d2 + b2.val < b1.val * d2 + d2 := by omega
          _ = (b1.val + 1) * d2 := by ring
          _ ≤ a1.val * d2 := mul_le_mul_right' (by omega) d2
          _ ≤ a1.val * d2 + a2.val := Nat.le_add_right _ _
      omega
  have hmuleq : a1.val * d2 = b1.val * d2 := by rw [h1]
  have h2 : a2.val = b2.val := by omega
  exact Prod.ext (Fin.ext h1) (Fin.ext h2)

/-- Matrix entries agree at index pairs with equal coordinates. -/
theorem mat_congr {d1 d2 : ℕ} (w : Mat d1 d2) {i i' : Fin d1} {j j' : Fin d2}
    (hi : i.val = i'.val) (hj : j.val = j'.val) : w i j = w i' j' := by
  rw [Fin.ext hi, Fin.ext hj]

theorem toMH_fromMH (v : Mat 12 49152) : toMH (fromMH v) = v := by
  funext h c
  have hh := h.isLt
  have hc := c.isLt
  simp only [toMH, fromMH]
  exact mat_congr v (by simp only; omega) (by simp only; omega)

theorem fromMH_toMH (w : Mat 768 768) : fromMH (toMH w) = w := by
  funext i j
  have hi := i.isLt
  have hj := j.isLt
  simp only [toMH, fromMH]
  exact mat_congr w (by simp only; omega) (by simp only; omega)

/-! ## Helper lemmas about the engine -/

theorem do_sparse_sel {d1 d2 : ℕ} (w : Mat d1 d2) (ratio : ℚ) (i : Fin d1) (j : Fin d2)
    (h : vSel w ratio (i, j)) : do_sparse w ratio i j = 0 := if_pos h

theorem do_sparse_nosel {d1 d2 : ℕ} (w : Mat d1 d2) (ratio : ℚ) (i : Fin d1) (j : Fin d2)
    (h : ¬ vSel w ratio (i, j)) : do_sparse w ratio i j = w i j := if_neg h

theorem do_sparse_chn_sel {d1 d2 : ℕ} (w : Mat d1 d2) (ratio : ℚ) (i : Fin d1) (j : Fin d2)
    (h : cSel w ratio i) : do_sparse_chn w ratio i j = 0 := if_pos h

theorem do_sparse_chn_nosel {d1 d2 : ℕ} (w : Mat d1 d2) (ratio : ℚ) (i : Fin d1) (j : Fin d2)
    (h : ¬ cSel w ratio i) : do_sparse_chn w ratio i j = w i j := if_neg h

/-- Vanilla pruning is idempotent: the second pass selects `k` entries of
minimal absolute value, all of which are already zero. -/
theorem do_sparse_idem {d1 d2 : ℕ} (w : Mat d1 d2) (ratio : ℚ) :
    do_sparse (do_sparse w ratio) ratio = do_sparse w ratio := by
  funext i j
  by_cases hsel : vSel (do_sparse w ratio) ratio (i, j)
  · rw [do_sparse_sel _ _ _ _ hsel]
    have hz := bottomSel_zero (fun q : Fin d1 × Fin d2 => |w q.1 q.2|)
        (fun q : Fin d1 × Fin d2 => |do_sparse w ratio q.1 q.2|)
        flatIdx_inj ((kOf ratio (d1 * d2)).toNat)
        (fun x => abs_nonneg _)
        (fun x hx => by
          show |do_sparse w ratio x.1 x.2| = 0
          rw [abs_eq_zero]
          exact do_sparse_sel w ratio x.1 x.2 hx)
        (i, j) hsel
    exact (abs_eq_zero.mp hz).symm
  · rw [do_sparse_nosel _ _ _ _ hsel]

/-- Channel pruning is idempotent: the second pass selects `k` rows of
minimal absolute row sum, all of which are already entirely zero. -/
theorem do_sparse_chn_idem {d1 d2 : ℕ} (w : Mat d1 d2) (ratio : ℚ) :
    do_sparse_chn (do_sparse_chn w ratio) ratio = do_sparse_chn w ratio := by
  funext i j
  by_cases hsel : cSel (do_sparse_chn w ratio) ratio i
  · rw [do_sparse_chn_sel _ _ _ _ hsel]
    have hz := bottomSel_zero (absRowSum w) (absRowSum (do_sparse_chn w ratio))
        Fin.val_injective ((kOf ratio d1).toNat)
        (fun x => Finset.sum_nonneg fun _ _ => abs_nonneg _)
        (fun x hx => by
          apply Finset.sum_eq_zero
          intro jj _
          rw [abs_eq_zero]
          exact do_sparse_chn_sel w ratio x jj hx)
        i hsel
    have hterm := (Finset.sum_eq_zero_iff_of_nonneg
        (fun jj _ => abs_nonneg (do_sparse_chn w ratio i jj))).mp hz j (Finset.mem_univ j)
    exact (abs_eq_zero.mp hterm).symm
  · rw [do_sparse_chn_nosel _ _ _ _ hsel]

/-- The masked head view of a second multi-head pass equals the first pass's
masked view: per column, the second selection picks only zeroed slots. -/
theorem mhMask_idem (v : Mat 12 49152) (k : ℕ) :
    mhMask (mhSel (mhMask (mhSel v k) v) k) (mhMask (mhSel v k) v) =
      mhMask (mhSel v k) v := by
  funext h c
  by_cases hsel : mhSel (mhMask (mhSel v k) v) k h c = true
  · show (if mhSel (mhMask (mhSel v k) v) k h c then (0:ℚ) else _) = _
    rw [if_pos hsel]
    have hb : bottomSel (fun hh : Fin 12 => |mhMask (mhSel v k) v hh c|) Fin.val k h :=
      of_decide_eq_true hsel
    have hz := bottomSel_zero (fun hh : Fin 12 => |v hh c|)
        (fun hh : Fin 12 => |mhMask (mhSel v k) v hh c|)
        Fin.val_injective k
        (fun x => abs_nonneg _)
        (fun x hx => by
          show |mhMask (mhSel v k) v x c| = 0
          rw [abs_eq_zero]
          show (if mhSel v k x c then (0:ℚ) else v x c) = 0
          exact if_pos (show mhSel v k x c = true from decide_eq_true hx))
        h hb
    exact (abs_eq_zero.mp hz).symm
  · show (if mhSel (mhMask (mhSel v k) v) k h c then (0:ℚ) else _) = _
    rw [if_neg hsel]

/-- Multi-head pruning (with recomputed selection) is idempotent. -/
theorem do_sparse_mh_idem (w : Mat 768 768) (ratio : ℚ) :
    (do_sparse_mh ((do_sparse_mh w ratio none).1) ratio none).1 =
      (do_sparse_mh w ratio none).1 := by
  have hv2 : toMH ((do_sparse_mh w ratio none).1) =
      mhMask (mhSel (toMH w) ((kOf ratio 12).toNat)) (toMH w) := by
    show toMH (fromMH (mhMask (mhSel (toMH w) ((kOf ratio 12).toNat)) (toMH w))) = _
    exact toMH_fromMH _
  show fromMH (mhMask (mhSel (toMH ((do_sparse_mh w ratio none).1)) ((kOf ratio 12).toNat))
      (toMH ((do_sparse_mh w ratio none).1))) = (do_sparse_mh w ratio none).1
  rw [hv2, mhMask_idem]
  rfl

/-- C3: for every `d1 × d2` matrix and keepRatio `r ∈ (0,1]`, Vanilla pruning
(`do_sparse` with prune fraction `1 - r`) zeroes exactly
`k = floor((1-r)*d1*d2)` selected entries, leaves every other entry
unchanged, and never zeroes an entry of strictly larger absolute value than a
kept entry (the selection is a bottom-`k`-by-absolute-value set, modulo
ties); in particular on the 768×768 all-ones matrix with keepRatio 1/2 the
output has exactly 294912 zero entries and 294912 entries equal to 1. -/
theorem C3_vanilla_bottom_k {d1 d2 : ℕ} (w : Mat d1 d2) (r : ℚ)
    (hr0 : 0 < r) (hr1 : r ≤ 1) :
    (kOf (1 - r) (d1 * d2) = ⌊(1 - r) * ((d1 * d2 : ℕ) : ℚ)⌋ ∧
     ∃ S : Finset (Fin d1 × Fin d2),
       S.card = (kOf (1 - r) (d1 * d2)).toNat ∧
       (∀ p ∈ S, do_sparse w (1 - r) p.1 p.2 = 0) ∧
       (∀ p, p ∉ S → do_sparse w (1 - r) p.1 p.2 = w p.1 p.2) ∧
       (∀ p ∈ S, ∀ q, q ∉ S → |w p.1 p.2| ≤ |w q.1 q.2|)) ∧
    ((Finset.univ.filter
        (fun p : Fin 768 × Fin 768 =>
          do_sparse (onesMat 768 768) (1 - (1/2 : ℚ)) p.1 p.2 = 0)).card = 294912 ∧
     (Finset.univ.filter
        (fun p : Fin 768 × Fin 768 =>
          do_sparse (onesMat 768 768) (1 - (1/2 : ℚ)) p.1 p.2 = 1)).card = 294912) := by
  have h10 : (0:ℚ) ≤ 1 - r := by linarith
  have h11 : 1 - r < 1 := by linarith
  constructor
  · refine ⟨kOf_eq_floor _ h10, ?_⟩
    refine ⟨Finset.univ.filter (fun p : Fin d1 × Fin d2 =>
      bottomSel (fun q : Fin d1 × Fin d2 => |w q.1 q.2|) flatIdx
        ((kOf (1 - r) (d1 * d2)).toNat) p), ?_, ?_, ?_, ?_⟩
    · rw [card_bottomSel _ _ flatIdx_inj]
      have hcard : Fintype.card (Fin d1 × Fin d2) = d1 * d2 := by simp
      rw [hcard]
      exact min_eq_left (kOf_toNat_le _ h10 h11)
    · intro p hp
      simp only [Finset.mem_filter, Finset.mem_univ, true_and] at hp
      exact do_sparse_sel w _ p.1 p.2 hp
    · intro p hp
      simp only [Finset.mem_filter, Finset.mem_univ, true_and] at hp
      exact do_sparse_nosel w _ p.1 p.2 hp
    · intro p hp q hq
      simp only [Finset.mem_filter, Finset.mem_univ, true_and] at hp hq
      exact @bottomSel_le _ _ _ (fun z : Fin d1 × Fin d2 => |w z.1 z.2|) flatIdx
        ((kOf (1 - r) (d1 * d2)).toNat) _ _ hp hq
  · have hk : (kOf (1 - (1/2 : ℚ)) (768 * 768)).toNat = 294912 := by
      rw [kOf_eq_floor (768 * 768) (by norm_num)]
      have hfl : ⌊(1 - (1/2 : ℚ)) * ((768 * 768 : ℕ) : ℚ)⌋ = 294912 := by norm_num
      rw [hfl]
      rfl
    have hzfilter : (Finset.univ.filter
        (fun p : Fin 768 × Fin 768 =>
          do_sparse (onesMat 768 768) (1 - (1/2 : ℚ)) p.1 p.2 = 0)) =
        (Finset.univ.filter (fun p : Fin 768 × Fin 768 =>
          bottomSel (fun q : Fin 768 × Fin 768 => |onesMat 768 768 q.1 q.2|) flatIdx
            ((kOf (1 - (1/2 : ℚ)) (768 * 768)).toNat) p)) := by
      apply Finset.filter_congr
      intro p _
      by_cases hsel : vSel (onesMat 768 768) (1 - (1/2 : ℚ)) (p.1, p.2)
      · exact iff_of_true (do_sparse_sel _ _ _ _ hsel) hsel
      · refine iff_of_false ?_ hsel
        rw [do_sparse_nosel _ _ _ _ hsel]
        exact one_ne_zero
    have hofilter : (Finset.univ.filter
        (fun p : Fin 768 × Fin 768 =>
          do_sparse (onesMat 768 768) (1 - (1/2 : ℚ)) p.1 p.2 = 1)) =
        (Finset.univ.filter (fun p : Fin 768 × Fin 768 =>
          ¬ bottomSel (fun q : Fin 768 × Fin 768 => |onesMat 768 768 q.1 q.2|) flatIdx
            ((kOf (1 - (1/2 : ℚ)) (768 * 768)).toNat) p)) := by
      apply Finset.filter_congr
      intro p _
      by_cases hsel : vSel (onesMat 768 768) (1 - (1/2 : ℚ)) (p.1, p.2)
      · refine iff_of_false ?_ (by simpa using hsel)
        rw [do_sparse_sel _ _ _ _ hsel]
        exact zero_ne_one
      · exact iff_of_true (do_sparse_nosel _ _ _ _ hsel) hsel
    constructor
    · rw [hzfilter, card_bottomSel _ _ flatIdx_inj, hk]
      have hcard : Fintype.card (Fin 768 × Fin 768) = 768 * 768 := by simp
      rw [hcard]
      norm_num
    · rw [hofilter, card_not_bottomSel _ _ flatIdx_inj, hk]
      have hcard : Fintype.card (Fin 768 × Fin 768) = 768 * 768 := by simp
      rw [hcard]
      norm_num

theorem C3_vanilla_bottom_k_witness :
    (0:ℚ) < 1/2 ∧ (1/2:ℚ) ≤ 1 ∧
    kOf (1 - (1/2:ℚ)) (2 * 2) = ⌊(1 - (1/2:ℚ)) * ((2 * 2 : ℕ) : ℚ)⌋ :=
  ⟨by norm_num, by norm_num,
    (@C3_vanilla_bottom_k 2 2 (fun _ _ => 1) (1/2) (by norm_num) (by norm_num)).1.1⟩

/-- C4: for every `d1 × d2` matrix and keepRatio `r ∈ (0,1]`, Channel pruning
(`do_sparse_chn` with prune fraction `1 - r`) zeroes exactly
`k = floor((1-r)*d1)` entire rows — every entry of each selected row becomes
zero and nothing outside the selected rows changes — the selected rows being
those of smallest absolute row sum (modulo ties). -/
theorem C4_channel_rows {d1 d2 : ℕ} (w : Mat d1 d2) (r : ℚ)
    (hr0 : 0 < r) (hr1 : r ≤ 1) :
    kOf (1 - r) d1 = ⌊(1 - r) * (d1 : ℚ)⌋ ∧
    ∃ S : Finset (Fin d1),
      S.card = (kOf (1 - r) d1).toNat ∧
      (∀ i ∈ S, ∀ j, do_sparse_chn w (1 - r) i j = 0) ∧
      (∀ i, i ∉ S → ∀ j, do_sparse_chn w (1 - r) i j = w i j) ∧
      (∀ i ∈ S, ∀ i', i' ∉ S → absRowSum w i ≤ absRowSum w i') := by
  have h10 : (0:ℚ) ≤ 1 - r := by linarith
  have h11 : 1 - r < 1 := by linarith
  refine ⟨kOf_eq_floor _ h10, ?_⟩
  refine ⟨Finset.univ.filter (fun i : Fin d1 =>
    bottomSel (absRowSum w) Fin.val ((kOf (1 - r) d1).toNat) i), ?_, ?_, ?_, ?_⟩
  · rw [card_bottomSel _ _ Fin.val_injective, Fintype.card_fin]
    exact min_eq_left (kOf_toNat_le _ h10 h11)
  · intro i hi j
    simp only [Finset.mem_filter, Finset.mem_univ, true_and] at hi
    exact do_sparse_chn_sel w _ i j hi
  · intro i hi j
    simp only [Finset.mem_filter, Finset.mem_univ, true_and] at hi
    exact do_sparse_chn_nosel w _ i j hi
  · intro i hi q hq
    simp only [Finset.mem_filter, Finset.mem_univ, true_and] at hi hq
    exact bottomSel_le hi hq

theorem C4_channel_rows_witness :
    (0:ℚ) < 1/2 ∧ (1/2:ℚ) ≤ 1 ∧
    kOf (1 - (1/2:ℚ)) 2 = ⌊(1 - (1/2:ℚ)) * ((2 : ℕ) : ℚ)⌋ :=
  ⟨by norm_num, by norm_num,
    (@C4_channel_rows 2 3 (fun _ _ => 1) (1/2) (by norm_num) (by norm_num)).1⟩

/-- C6: for every matrix, mode (Vanilla, Channel, or MultiHead with
recomputed selection) and keepRatio `r ∈ (0,1]`, applying the pruning
operation twice in a row with the same ratio and mode yields the same matrix
as applying it once — the second pass re-selects only already-zero
entries/rows/positions. -/
theorem C6_prune_idempotent (r : ℚ) (hr0 : 0 < r) (hr1 : r ≤ 1) :
    (∀ (d1 d2 : ℕ) (w : Mat d1 d2),
        do_sparse (do_sparse w (1 - r)) (1 - r) = do_sparse w (1 - r)) ∧
    (∀ (d1 d2 : ℕ) (w : Mat d1 d2),
        do_sparse_chn (do_sparse_chn w (1 - r)) (1 - r) = do_sparse_chn w (1 - r)) ∧
    (∀ w : Mat 768 768,
        (do_sparse_mh ((do_sparse_mh w (1 - r) none).1) (1 - r) none).1 =
          (do_sparse_mh w (1 - r) none).1) :=
  ⟨fun _ _ w => do_sparse_idem w (1 - r),
   fun _ _ w => do_sparse_chn_idem w (1 - r),
   fun w => do_sparse_mh_idem w (1 - r)⟩

theorem C6_prune_idempotent_witness :
    (0:ℚ) < 1/2 ∧ (1/2:ℚ) ≤ 1 ∧
    do_sparse (do_sparse (fun _ _ => (1:ℚ) : Mat 2 2) (1 - (1/2))) (1 - (1/2)) =
      do_sparse (fun _ _ => (1:ℚ) : Mat 2 2) (1 - (1/2)) :=
  ⟨by norm_num, by norm_num,
    (C6_prune_idempotent (1/2) (by norm_num) (by norm_num)).1 2 2 (fun _ _ => 1)⟩

/-! ## Rate balancer facts -/

theorem wholeParam_pos (i : ℕ) : 0 < wholeParam i := by
  unfold wholeParam
  split_ifs <;> norm_num

theorem wholeParamSum_pos : 0 < ∑ i : Fin 48, wholeParam i.val :=
  Finset.sum_pos (fun i _ => wholeParam_pos _) ⟨⟨0, by omega⟩, Finset.mem_univ _⟩

theorem wmean_const (c : ℚ) : wmean (fun _ => c) = c := by
  unfold wmean
  rw [← Finset.mul_sum, mul_div_assoc, div_self (ne_of_gt wholeParamSum_pos), mul_one]

/-- C5: for every 48-slot rate vector with nonzero parameter-count-weighted
mean and every target sparsity `s`, `balance` rescales every rate by
`s / weightedMean` (weights cycling through the four per-slot parameter
counts), the weighted mean of the output equals `s` exactly, and 48 equal
rates of 1/2 with target 3/10 become 48 equal rates of 3/10. -/
theorem C5_balance_weighted_mean (rates : Fin 48 → ℚ) (s : ℚ) (hmu : wmean rates ≠ 0) :
    (∀ i, balance rates s i = rates i / wmean rates * s) ∧
    wmean (balance rates s) = s ∧
    balance (fun _ => (1/2 : ℚ)) (3/10) = fun _ => (3/10 : ℚ) := by
  have hW : (∑ i : Fin 48, wholeParam i.val) ≠ 0 := ne_of_gt wholeParamSum_pos
  refine ⟨fun i => rfl, ?_, ?_⟩
  · have hS : (∑ i : Fin 48, rates i * wholeParam i.val) =
        wmean rates * (∑ i : Fin 48, wholeParam i.val) := by
      unfold wmean
      exact (div_mul_cancel₀ _ hW).symm
    have hnum : (∑ i : Fin 48, balance rates s i * wholeParam i.val)
        = s / wmean rates * (∑ i : Fin 48, rates i * wholeParam i.val) := by
      rw [Finset.mul_sum]
      apply Finset.sum_congr rfl
      intro i _
      unfold balance
      ring
    unfold wmean
    rw [hnum, hS]
    field_simp
  · funext i
    show balance (fun _ => (1/2 : ℚ)) (3/10) i = (3/10 : ℚ)
    unfold balance
    rw [wmean_const]
    norm_num

theorem C5_balance_weighted_mean_witness :
    wmean (fun _ : Fin 48 => (1/2 : ℚ)) ≠ 0 ∧
    wmean (balance (fun _ => (1/2 : ℚ)) (3/10)) = 3/10 :=
  ⟨by rw [wmean_const]; norm_num,
   (C5_balance_weighted_mean (fun _ => (1/2 : ℚ)) (3/10)
     (by rw [wmean_const]; norm_num)).2.1⟩

/-! ## Multi-head pruning: what the code actually selects (C1) -/

/-- C1 (amended): MultiHead pruning reshapes the 768×768 matrix into 12
head-rows of 64*768 elements and `k = floor((1-r)*12)`, but its
`topk(·, dim=0)` runs independently down each of the 49152 view-columns:
in every column exactly `k` of the 12 head slots are zeroed, those being the
slots of smallest absolute value within that column (modulo ties) — not
whole head-rows by aggregate magnitude.  The selection computed from the
Value matrix, when reused for Query and Key, zeroes the identical
(head, column) positions in all three matrices and leaves every other
position unchanged. -/
theorem C1_mh_per_column (r : ℚ) (hr0 : 0 < r) (hr1 : r ≤ 1) (wq wk wv : Mat 768 768) :
    kOf (1 - r) 12 = ⌊(1 - r) * (12 : ℚ)⌋ ∧
    (∀ c : Fin 49152,
      (Finset.univ.filter
        (fun h : Fin 12 => (do_sparse_mh wv (1 - r) none).2 h c = true)).card
        = (kOf (1 - r) 12).toNat) ∧
    (∀ (c : Fin 49152) (h h' : Fin 12),
      (do_sparse_mh wv (1 - r) none).2 h c = true →
      (do_sparse_mh wv (1 - r) none).2 h' c = false →
      |toMH wv h c| ≤ |toMH wv h' c|) ∧
    (∀ (h : Fin 12) (c : Fin 49152),
      (do_sparse_mh wv (1 - r) none).2 h c = true →
        toMH (do_sparse_mh wv (1 - r) none).1 h c = 0 ∧
        toMH (do_sparse_mh wq (1 - r) (some (do_sparse_mh wv (1 - r) none).2)).1 h c = 0 ∧
        toMH (do_sparse_mh wk (1 - r) (some (do_sparse_mh wv (1 - r) none).2)).1 h c = 0) ∧
    (∀ (h : Fin 12) (c : Fin 49152),
      (do_sparse_mh wv (1 - r) none).2 h c = false →
        toMH (do_sparse_mh wv (1 - r) none).1 h c = toMH wv h c ∧
        toMH (do_sparse_mh wq (1 - r) (some (do_sparse_mh wv (1 - r) none).2)).1 h c
          = toMH wq h c ∧
        toMH (do_sparse_mh wk (1 - r) (some (do_sparse_mh wv (1 - r) none).2)).1 h c
          = toMH wk h c) := by
  have h10 : (0:ℚ) ≤ 1 - r := by linarith
  have h11 : 1 - r < 1 := by linarith
  have hselv : (do_sparse_mh wv (1 - r) none).2 = mhSel (toMH wv) ((kOf (1 - r) 12).toNat) :=
    rfl
  have hmaskv : toMH (do_sparse_mh wv (1 - r) none).1 =
      mhMask (mhSel (toMH wv) ((kOf (1 - r) 12).toNat)) (toMH wv) := by
    show toMH (fromMH (mhMask (mhSel (toMH wv) ((kOf (1 - r) 12).toNat)) (toMH wv))) = _
    exact toMH_fromMH _
  have hmaskq : toMH (do_sparse_mh wq (1 - r) (some (do_sparse_mh wv (1 - r) none).2)).1 =
      mhMask ((do_sparse_mh wv (1 - r) none).2) (toMH wq) := by
    show toMH (fromMH (mhMask ((do_sparse_mh wv (1 - r) none).2) (toMH wq))) = _
    exact toMH_fromMH _
  have hmaskk : toMH (do_sparse_mh wk (1 - r) (some (do_sparse_mh wv (1 - r) none).2)).1 =
      mhMask ((do_sparse_mh wv (1 - r) none).2) (toMH wk) := by
    show toMH (fromMH (mhMask ((do_sparse_mh wv (1 - r) none).2) (toMH wk))) = _
    exact toMH_fromMH _
  refine ⟨?_, ?_, ?_, ?_, ?_⟩
  · rw [kOf_eq_floor 12 h10]
    norm_num
  · intro c
    have hfe : (Finset.univ.filter
        (fun h : Fin 12 => (do_sparse_mh wv (1 - r) none).2 h c = true))
        = (Finset.univ.filter (fun h : Fin 12 =>
            bottomSel (fun hh : Fin 12 => |toMH wv hh c|) Fin.val
              ((kOf (1 - r) 12).toNat) h)) := by
      apply Finset.filter_congr
      intro h _
      rw [hselv]
      show mhSel (toMH wv) ((kOf (1 - r) 12).toNat) h c = true ↔ _
      unfold mhSel
      exact ⟨of_decide_eq_true, decide_eq_true⟩
    rw [hfe, card_bottomSel _ _ Fin.val_injective, Fintype.card_fin]
    exact min_eq_left (kOf_toNat_le 12 h10 h11)
  · intro c h h' hh hh'
    rw [hselv] at hh hh'
    have hbh : bottomSel (fun hhh : Fin 12 => |toMH wv hhh c|) Fin.val
        ((kOf (1 - r) 12).toNat) h := of_decide_eq_true hh
    have hbh' : ¬ bottomSel (fun hhh : Fin 12 => |toMH wv hhh c|) Fin.val
        ((kOf (1 - r) 12).toNat) h' := of_decide_eq_false hh'
    exact @bottomSel_le _ _ _ (fun hhh : Fin 12 => |toMH wv hhh c|) Fin.val
      ((kOf (1 - r) 12).toNat) _ _ hbh hbh'
  · intro h c hsel
    refine ⟨?_, ?_, ?_⟩
    · rw [hmaskv]
      show (if (do_sparse_mh wv (1 - r) none).2 h c then (0:ℚ) else toMH wv h c) = 0
      rw [if_pos hsel]
    · rw [hmaskq]
      show (if (do_sparse_mh wv (1 - r) none).2 h c then (0:ℚ) else toMH wq h c) = 0
      rw [if_pos hsel]
    · rw [hmaskk]
      show (if (do_sparse_mh wv (1 - r) none).2 h c then (0:ℚ) else toMH wk h c) = 0
      rw [if_pos hsel]
  · intro h c hsel
    have hne : ¬ ((do_sparse_mh wv (1 - r) none).2 h c = true) := by
      rw [hsel]
      exact Bool.false_ne_true
    refine ⟨?_, ?_, ?_⟩
    · rw [hmaskv]
      show (if (do_sparse_mh wv (1 - r) none).2 h c then (0:ℚ) else toMH wv h c) = toMH wv h c
      rw [if_neg hne]
    · rw [hmaskq]
      show (if (do_sparse_mh wv (1 - r) none).2 h c then (0:ℚ) else toMH wq h c) = toMH wq h c
      rw [if_neg hne]
    · rw [hmaskk]
      show (if (do_sparse_mh wv (1 - r) none).2 h c then (0:ℚ) else toMH wk h c) = toMH wk h c
      rw [if_neg hne]

theorem C1_mh_per_column_witness :
    (0:ℚ) < 1/2 ∧ (1/2:ℚ) ≤ 1 ∧
    kOf (1 - (1/2:ℚ)) 12 = ⌊(1 - (1/2:ℚ)) * (12 : ℚ)⌋ :=
  ⟨by norm_num, by norm_num,
   (C1_mh_per_column (1/2) (by norm_num) (by norm_num)
     (onesMat 768 768) (onesMat 768 768) (onesMat 768 768)).1⟩

theorem absRowSum_vX (h : Fin 12) : absRowSum vX h = 49150 * (h.val : ℚ) + 11 := by
  have hb : h.val ≤ 11 := by omega
  unfold absRowSum
  have habs : ∀ c : Fin 49152,
      |vX h c| = (h.val : ℚ) + (if c = (1 : Fin 49152) then 11 - 2 * (h.val : ℚ) else 0) := by
    intro c
    unfold vX
    by_cases hc : c.val = 1
    · have hc1 : c = (1 : Fin 49152) := Fin.ext (by simpa using hc)
      rw [if_pos hc, if_pos hc1, abs_of_nonneg (by
        have hcast : (h.val : ℚ) ≤ 11 := by exact_mod_cast hb
        linarith)]
      ring
    · have hc1 : c ≠ (1 : Fin 49152) := fun he => hc (by rw [he]; rfl)
      rw [if_neg hc, if_neg hc1, abs_of_nonneg (by positivity)]
      ring
  rw [Finset.sum_congr rfl (fun c _ => habs c), Finset.sum_add_distrib,
    Finset.sum_const, Finset.card_univ, Fintype.card_fin,
    Finset.sum_ite_eq' Finset.univ (1 : Fin 49152) (fun _ => 11 - 2 * (h.val : ℚ)),
    if_pos (Finset.mem_univ _), nsmul_eq_mul]
  ring

/-- Head 6 is not among the bottom-6 heads by aggregate magnitude of `vX`:
aggregates are strictly increasing in the head index, so exactly heads 0-5
precede head 6. -/
theorem aggRank6_not : ¬ bottomSel (absRowSum vX) Fin.val 6 (6 : Fin 12) := by
  have hkey : ∀ h : Fin 12, keyLt (absRowSum vX) Fin.val h (6 : Fin 12) ↔ h.val < 6 := by
    intro h
    unfold keyLt
    rw [absRowSum_vX, absRowSum_vX]
    have h6 : (6 : Fin 12).val = 6 := rfl
    rw [h6]
    constructor
    · rintro (hlt | ⟨heq, hv⟩)
      · have hq : (h.val : ℚ) < ((6 : ℕ) : ℚ) := by push_cast at hlt ⊢; linarith
        exact_mod_cast hq
      · exact hv
    · intro hv
      left
      have hq : (h.val : ℚ) < ((6 : ℕ) : ℚ) := by exact_mod_cast hv
      push_cast at hq ⊢
      linarith
  unfold bottomSel rank
  rw [Finset.filter_congr (fun x _ => hkey x), card_fin_filter_lt]
  norm_num

/-- In view-column 1 of `vX` the values decrease with the head index, so head
6 is among that column's bottom 6 by absolute value. -/
theorem col1_sel6 : bottomSel (fun hh : Fin 12 => |vX hh (1 : Fin 49152)|) Fin.val 6
    (6 : Fin 12) := by
  have hval : ∀ hh : Fin 12, |vX hh (1 : Fin 49152)| = 11 - (hh.val : ℚ) := by
    intro hh
    unfold vX
    rw [if_pos (show (1 : Fin 49152).val = 1 from rfl)]
    have hb : hh.val ≤ 11 := by omega
    rw [abs_of_nonneg (by
      have hcast : (hh.val : ℚ) ≤ 11 := by exact_mod_cast hb
      linarith)]
  have hkey : ∀ hh : Fin 12,
      keyLt (fun hh2 : Fin 12 => |vX hh2 (1 : Fin 49152)|) Fin.val hh (6 : Fin 12) ↔
        6 < hh.val := by
    intro hh
    unfold keyLt
    simp only [hval]
    have h6 : (6 : Fin 12).val = 6 := rfl
    rw [h6]
    constructor
    · rintro (hlt | ⟨heq, hv⟩)
      · have hq : ((6 : ℕ) : ℚ) < (hh.val : ℚ) := by push_cast at hlt ⊢; linarith
        exact_mod_cast hq
      · exfalso
        have hq : (hh.val : ℚ) = ((6 : ℕ) : ℚ) := by push_cast at heq ⊢; linarith
        have hnat : hh.val = 6 := by exact_mod_cast hq
        omega
    · intro hv
      left
      have hq : ((6 : ℕ) : ℚ) < (hh.val : ℚ) := by exact_mod_cast hv
      push_cast at hq ⊢
      linarith
  unfold bottomSel rank
  rw [Finset.filter_congr (fun x _ => hkey x)]
  decide

/-- C1 counterexample: on the concrete matrix `wX`, `do_sparse_mh` with
keepRatio 1/2 does not equal the specified whole-head-row pruning — at head
6, view-column 1 (original entry (384, 1)) the code zeroes the entry (it is
among the column's 6 smallest) while the aggregate rule keeps it (head 6's
aggregate ranks 7th of 12). -/
theorem C1_mh_not_head_rows :
    (do_sparse_mh wX (1 - (1/2 : ℚ)) none).1 ≠ do_sparse_mh_specRows wX (1 - (1/2 : ℚ)) := by
  intro heq
  have hk6 : (kOf (1 - (1/2 : ℚ)) 12).toNat = 6 := by
    rw [kOf_eq_floor 12 (by norm_num)]
    have hfl : ⌊(1 - (1/2 : ℚ)) * ((12 : ℕ) : ℚ)⌋ = 6 := by norm_num
    rw [hfl]
    rfl
  have hvx : toMH wX = vX := toMH_fromMH vX
  have happ : toMH ((do_sparse_mh wX (1 - (1/2 : ℚ)) none).1) (6 : Fin 12) (1 : Fin 49152) =
      toMH (do_sparse_mh_specRows wX (1 - (1/2 : ℚ))) (6 : Fin 12) (1 : Fin 49152) := by
    rw [heq]
  have hL : toMH ((do_sparse_mh wX (1 - (1/2 : ℚ)) none).1) (6 : Fin 12) (1 : Fin 49152)
      = 0 := by
    have hm : toMH ((do_sparse_mh wX (1 - (1/2 : ℚ)) none).1) =
        mhMask (mhSel (toMH wX) ((kOf (1 - (1/2 : ℚ)) 12).toNat)) (toMH wX) := by
      show toMH (fromMH (mhMask (mhSel (toMH wX) ((kOf (1 - (1/2 : ℚ)) 12).toNat))
        (toMH wX))) = _
      exact toMH_fromMH _
    rw [hm, hvx, hk6]
    show (if mhSel vX 6 (6 : Fin 12) (1 : Fin 49152) then (0:ℚ)
      else vX (6 : Fin 12) (1 : Fin 49152)) = 0
    rw [if_pos (show mhSel vX 6 (6 : Fin 12) (1 : Fin 49152) = true
      from decide_eq_true col1_sel6)]
  have hR : toMH (do_sparse_mh_specRows wX (1 - (1/2 : ℚ))) (6 : Fin 12) (1 : Fin 49152)
      = 5 := by
    have hm : toMH (do_sparse_mh_specRows wX (1 - (1/2 : ℚ))) =
        fun h c => if bottomSel (absRowSum (toMH wX)) Fin.val
            ((kOf (1 - (1/2 : ℚ)) 12).toNat) h then 0 else toMH wX h c := by
      show toMH (fromMH (fun h c => if bottomSel (absRowSum (toMH wX)) Fin.val
          ((kOf (1 - (1/2 : ℚ)) 12).toNat) h then 0 else toMH wX h c)) = _
      exact toMH_fromMH _
    rw [hm]
    show (if bottomSel (absRowSum (toMH wX)) Fin.val
        ((kOf (1 - (1/2 : ℚ)) 12).toNat) (6 : Fin 12) then (0:ℚ)
      else toMH wX (6 : Fin 12) (1 : Fin 49152)) = 5
    rw [hvx, hk6, if_neg aggRank6_not]
    unfold vX
    rw [if_pos (show (1 : Fin 49152).val = 1 from rfl),
      show (6 : Fin 12).val = 6 from rfl]
    norm_num
  rw [hL, hR] at happ
  norm_num at happ

/-! ## Epoch scoring and best-score facts (C7) -/

theorem bestFold_ge_init (l : List ℚ) (b : ℚ) :
    b ≤ l.foldl (fun best s2 => if best < s2 then s2 else best) b := by
  induction l generalizing b with
  | nil => exact le_refl b
  | cons a t ih =>
    rw [List.foldl_cons]
    refine le_trans ?_ (ih (if b < a then a else b))
    by_cases h : b < a
    · rw [if_pos h]; exact le_of_lt h
    · rw [if_neg h]

theorem bestFold_ge_mem (l : List ℚ) (b : ℚ) (s : ℚ) (hs : s ∈ l) :
    s ≤ l.foldl (fun best s2 => if best < s2 then s2 else best) b := by
  induction l generalizing b with
  | nil => cases hs
  | cons a t ih =>
    rw [List.foldl_cons]
    rcases List.mem_cons.mp hs with he | ht
    · subst he
      refine le_trans ?_ (bestFold_ge_init t (if b < s then s else b))
      by_cases h : b < s
      · rw [if_pos h]
      · rw [if_neg h]; exact le_of_not_lt h
    · exact ih (if b < a then a else b) ht

theorem bestFold_mem_or_init (l : List ℚ) (b : ℚ) :
    l.foldl (fun best s2 => if best < s2 then s2 else best) b ∈ l ∨
      l.foldl (fun best s2 => if best < s2 then s2 else best) b = b := by
  induction l generalizing b with
  | nil => exact Or.inr rfl
  | cons a t ih =>
    rw [List.foldl_cons]
    by_cases h : b < a
    · rw [if_pos h]
      rcases ih a with hmem | heq
      · exact Or.inl (List.mem_cons_of_mem _ hmem)
      · exact Or.inl (by rw [heq]; exact List.mem_cons_self a t)
    · rw [if_neg h]
      rcases ih b with hmem | heq
      · exact Or.inl (List.mem_cons_of_mem _ hmem)
      · exact Or.inr heq

/-- C7 (amended): a NaN Matthews mean is replaced by 0 and is never fatal;
for the cola task the epoch score is that sanitized correlation; and the run
returns the maximum of 0 and all epoch scores — `best_acc` starts at 0 and
only strictly larger scores replace it, so the result is an upper bound of
every epoch score, is nonnegative, and is either one of the epoch scores or
the initial 0 (it equals the maximum epoch score only when some score is
nonnegative). -/
theorem C7_eval_reporting (scores : List ℚ) :
    (sanitizeMC none = 0 ∧ ∀ q : ℚ, sanitizeMC (some q) = q) ∧
    (∀ (acc : ℚ) (mc : Option ℚ),
        epochScore true acc mc = sanitizeMC mc ∧ epochScore false acc mc = acc) ∧
    (0 ≤ bestAccRun scores ∧
     (∀ s ∈ scores, s ≤ bestAccRun scores) ∧
     (bestAccRun scores ∈ scores ∨ bestAccRun scores = 0)) := by
  refine ⟨⟨rfl, fun q => rfl⟩, fun acc mc => ⟨rfl, rfl⟩, ?_, ?_, ?_⟩
  · exact bestFold_ge_init scores 0
  · intro s hs
    exact bestFold_ge_mem scores 0 s hs
  · exact bestFold_mem_or_init scores 0

theorem C7_eval_reporting_witness :
    (1/2 : ℚ) ∈ [(1/2 : ℚ)] ∧ (1/2 : ℚ) ≤ bestAccRun [(1/2 : ℚ)] :=
  ⟨List.mem_singleton.mpr rfl,
   (C7_eval_reporting [(1/2 : ℚ)]).2.2.2.1 (1/2) (List.mem_singleton.mpr rfl)⟩

/-- C7 counterexample: a run whose single epoch score is −1 (a Matthews
correlation a cola epoch can produce) returns 0, not the maximum epoch score
seen, which is −1. -/
theorem C7_best_not_max :
    bestAccRun [(-1 : ℚ)] = 0 ∧ (0 : ℚ) ≠ -1 := by
  constructor
  · show (if (0 : ℚ) < -1 then (-1 : ℚ) else 0) = 0
    rw [if_neg (by norm_num)]
  · norm_num

/-! ## Metric facts (C9) -/

theorem preds01 (out : List (ℚ × ℚ)) : ∀ x ∈ predsOf out, x = 0 ∨ x = 1 := by
  intro x hx
  rcases List.mem_map.mp hx with ⟨l, _, hl⟩
  by_cases hc : l.1 < l.2
  · right; rw [← hl, if_pos hc]
  · left; rw [← hl, if_neg hc]

theorem tpOf_self (L : List ℤ) (h01 : ∀ x ∈ L, x = 0 ∨ x = 1) : tpOf L L = L.sum := by
  induction L with
  | nil => rfl
  | cons a t ih =>
    have ha := h01 a (List.mem_cons_self a t)
    have hstep : tpOf (a :: t) (a :: t) = a * a + tpOf t t := by
      unfold tpOf
      rw [List.zip_cons_cons, List.map_cons, List.sum_cons]
    rw [hstep, ih (fun x hx => h01 x (List.mem_cons_of_mem a hx)), List.sum_cons]
    rcases ha with h | h <;> rw [h] <;> ring

theorem fpOf_self (L : List ℤ) (h01 : ∀ x ∈ L, x = 0 ∨ x = 1) : fpOf L L = 0 := by
  induction L with
  | nil => rfl
  | cons a t ih =>
    have ha := h01 a (List.mem_cons_self a t)
    have hstep : fpOf (a :: t) (a :: t) = a * (1 - a) + fpOf t t := by
      unfold fpOf
      rw [List.zip_cons_cons, List.map_cons, List.sum_cons]
    rw [hstep, ih (fun x hx => h01 x (List.mem_cons_of_mem a hx))]
    rcases ha with h | h <;> rw [h] <;> ring

theorem fnOf_self (L : List ℤ) (h01 : ∀ x ∈ L, x = 0 ∨ x = 1) : fnOf L L = 0 := by
  induction L with
  | nil => rfl
  | cons a t ih =>
    have ha := h01 a (List.mem_cons_self a t)
    have hstep : fnOf (a :: t) (a :: t) = (1 - a) * a + fnOf t t := by
      unfold fnOf
      rw [List.zip_cons_cons, List.map_cons, List.sum_cons]
    rw [hstep, ih (fun x hx => h01 x (List.mem_cons_of_mem a hx))]
    rcases ha with h | h <;> rw [h] <;> ring

theorem tnOf_self (L : List ℤ) (h01 : ∀ x ∈ L, x = 0 ∨ x = 1) :
    tnOf L L = (L.length : ℤ) - L.sum := by
  induction L with
  | nil => rfl
  | cons a t ih =>
    have ha := h01 a (List.mem_cons_self a t)
    have hstep : tnOf (a :: t) (a :: t) = (1 - a) * (1 - a) + tnOf t t := by
      unfold tnOf
      rw [List.zip_cons_cons, List.map_cons, List.sum_cons]
    rw [hstep, ih (fun x hx => h01 x (List.mem_cons_of_mem a hx)), List.sum_cons,
      List.length_cons]
    push_cast
    rcases ha with h | h <;> rw [h] <;> ring

theorem nCorrect_self (L : List ℤ) : nCorrect L L = L.length := by
  induction L with
  | nil => rfl
  | cons a t ih =>
    have hstep : nCorrect (a :: t) (a :: t) = nCorrect t t + 1 := by
      unfold nCorrect
      rw [List.zip_cons_cons, List.filter_cons_of_pos (by simp), List.length_cons]
    rw [hstep, ih, List.length_cons]

theorem sum01_nonneg (L : List ℤ) (h01 : ∀ x ∈ L, x = 0 ∨ x = 1) : 0 ≤ L.sum := by
  induction L with
  | nil => simp
  | cons a t ih =>
    rw [List.sum_cons]
    have ha := h01 a (List.mem_cons_self a t)
    have ht := ih (fun x hx => h01 x (List.mem_cons_of_mem a hx))
    rcases ha with h | h <;> omega

theorem sum01_pos_of_one_mem (L : List ℤ) (h01 : ∀ x ∈ L, x = 0 ∨ x = 1)
    (h1 : (1 : ℤ) ∈ L) : 1 ≤ L.sum := by
  induction L with
  | nil => cases h1
  | cons a t ih =>
    rw [List.sum_cons]
    have ha := h01 a (List.mem_cons_self a t)
    have ht01 := fun x hx => h01 x (List.mem_cons_of_mem a hx)
    rcases List.mem_cons.mp h1 with he | hm
    · have htn := sum01_nonneg t ht01
      omega
    · have := ih ht01 hm
      rcases ha with h | h <;> omega

theorem sum01_le_length (L : List ℤ) (h01 : ∀ x ∈ L, x = 0 ∨ x = 1) :
    L.sum ≤ (L.length : ℤ) := by
  induction L with
  | nil => simp
  | cons a t ih =>
    rw [List.sum_cons, List.length_cons]
    have ha := h01 a (List.mem_cons_self a t)
    have ht := ih (fun x hx => h01 x (List.mem_cons_of_mem a hx))
    push_cast
    rcases ha with h | h <;> omega

theorem sum01_le_length_sub_one (L : List ℤ) (h01 : ∀ x ∈ L, x = 0 ∨ x = 1)
    (h0 : (0 : ℤ) ∈ L) : L.sum ≤ (L.length : ℤ) - 1 := by
  induction L with
  | nil => cases h0
  | cons a t ih =>
    rw [List.sum_cons, List.length_cons]
    have ha := h01 a (List.mem_cons_self a t)
    have ht01 := fun x hx => h01 x (List.mem_cons_of_mem a hx)
    have hle : t.sum ≤ (t.length : ℤ) := sum01_le_length t ht01
    rcases List.mem_cons.mp h0 with he | hm
    · push_cast
      omega
    · have := ih ht01 hm
      push_cast
      rcases ha with h | h <;> omega

/-- Single-batch core: when every prediction equals its label and both
classes occur among the batch labels, `accuracy` returns a correct count
equal to the batch size and Matthews parts with `num > 0` and
`num² = denomSq` (i.e. `num / sqrt(denomSq) = 1`). -/
theorem accuracy_all_correct (out : List (ℚ × ℚ)) (labels : List ℤ)
    (hcor : predsOf out = labels)
    (h1 : (1 : ℤ) ∈ labels) (h0 : (0 : ℤ) ∈ labels) :
    (accuracy out labels).1 = labels.length ∧
    mcEqOne (accuracy out labels).2 := by
  have h01 : ∀ x ∈ labels, x = 0 ∨ x = 1 := by
    rw [← hcor]
    exact preds01 out
  have hacc : accuracy out labels = (nCorrect labels labels,
      (tpOf labels labels * tnOf labels labels - fpOf labels labels * fnOf labels labels,
       (tpOf labels labels + fpOf labels labels) * (tpOf labels labels + fnOf labels labels) *
       (tnOf labels labels + fpOf labels labels) * (tnOf labels labels + fnOf labels labels))) := by
    unfold accuracy
    rw [hcor]
  have hlen : labels ≠ [] := by
    intro he
    rw [he] at h1
    cases h1
  have hlenpos : 0 < labels.length := List.length_pos.mpr hlen
  have hS1 : 1 ≤ labels.sum := sum01_pos_of_one_mem labels h01 h1
  have hS2 : labels.sum ≤ (labels.length : ℤ) - 1 := sum01_le_length_sub_one labels h01 h0
  rw [hacc]
  refine ⟨nCorrect_self labels, ?_⟩
  show mcEqOne (tpOf labels labels * tnOf labels labels -
    fpOf labels labels * fnOf labels labels,
    (tpOf labels labels + fpOf labels labels) * (tpOf labels labels + fnOf labels labels) *
    (tnOf labels labels + fpOf labels labels) * (tnOf labels labels + fnOf labels labels))
  rw [tpOf_self labels h01, tnOf_self labels h01, fpOf_self labels h01, fnOf_self labels h01]
  constructor
  · show (0 : ℤ) < labels.sum * ((labels.length : ℤ) - labels.sum) - 0 * 0
    have hpos : 0 < labels.sum * ((labels.length : ℤ) - labels.sum) :=
      mul_pos (by omega) (by omega)
    omega
  · show (labels.sum * ((labels.length : ℤ) - labels.sum) - 0 * 0) ^ 2 =
      (labels.sum + 0) * (labels.sum + 0) *
      (((labels.length : ℤ) - labels.sum) + 0) * (((labels.length : ℤ) - labels.sum) + 0)
    ring

/-- A Matthews pair with `num > 0` and `num² = denomSq` has float value
exactly 1. -/
theorem mcReal_eq_one {p : ℤ × ℤ} (h : mcEqOne p) : mcReal p = some 1 := by
  obtain ⟨hpos, hsq⟩ := h
  have hd : p.2 ≠ 0 := by
    rw [← hsq]
    exact pow_ne_zero 2 (ne_of_gt hpos)
  unfold mcReal
  rw [if_neg hd]
  congr 1
  rw [← hsq]
  push_cast
  rw [Real.sqrt_sq (le_of_lt (by exact_mod_cast hpos))]
  exact div_self (by exact_mod_cast ne_of_gt hpos)

/-- Summing a list of float 1s (no NaN) from a running total `a` gives
`a + length`. -/
theorem optAdd_fold_ones (l : List (Option ℝ)) (h : ∀ x ∈ l, x = some 1) :
    ∀ a : ℝ, l.foldl optAdd (some a) = some (a + l.length) := by
  induction l with
  | nil =>
    intro a
    show some a = some (a + ((0 : ℕ) : ℝ))
    norm_num
  | cons x t ih =>
    intro a
    rw [List.foldl_cons, h x (List.mem_cons_self x t)]
    show t.foldl optAdd (some (a + 1)) = some (a + ((t.length + 1 : ℕ) : ℝ))
    rw [ih (fun y hy => h y (List.mem_cons_of_mem x hy)) (a + 1)]
    congr 1
    push_cast
    ring

/-- C9 (amended): for an evaluation epoch of a 2-class task — a list of
batches, each scored by one `accuracy` call (lines 984-997) — in which every
prediction equals its label, the reported accuracy (total correct over total
examples) is 1.0; and when additionally both classes occur in **every
evaluation batch**, every per-batch Matthews value is exactly 1, so the
reported Matthews correlation (the mean of the per-batch values, line 997) is
exactly 1.0 and survives the NaN sanitization unchanged.  (Both classes per
epoch is not enough: a single-class batch contributes NaN and poisons the
mean — see the counterexample.) -/
theorem C9_all_correct (batches : List (List (ℚ × ℚ) × List ℤ))
    (hne : batches ≠ [])
    (hcor : ∀ b ∈ batches, predsOf b.1 = b.2)
    (hcls : ∀ b ∈ batches, (1 : ℤ) ∈ b.2 ∧ (0 : ℤ) ∈ b.2) :
    epochCorrect batches = epochExamples batches ∧
    epochAccuracy batches = 1 ∧
    epochMC batches = some 1 ∧
    sanitizeMCReal (epochMC batches) = 1 := by
  have hblen : ∀ b ∈ batches, b.2.length = b.1.length := by
    intro b hb
    rw [← hcor b hb]
    unfold predsOf
    rw [List.length_map]
  have hEq : epochCorrect batches = epochExamples batches := by
    unfold epochCorrect epochExamples
    congr 1
    apply List.map_congr_left
    intro b hb
    rw [(accuracy_all_correct b.1 b.2 (hcor b hb) (hcls b hb).1 (hcls b hb).2).1]
    exact hblen b hb
  have hexpos : 0 < epochExamples batches := by
    obtain ⟨b, hb⟩ := List.exists_mem_of_ne_nil batches hne
    have h2ne : b.2 ≠ [] := by
      intro he
      have := (hcls b hb).1
      rw [he] at this
      cases this
    have h1len : 0 < b.1.length := by
      have := List.length_pos.mpr h2ne
      rw [hblen b hb] at this
      exact this
    have hmem : b.1.length ∈ batches.map (fun b2 => b2.1.length) :=
      List.mem_map.mpr ⟨b, hb, rfl⟩
    have hle := List.single_le_sum (fun x _ => Nat.zero_le x) _ hmem
    unfold epochExamples
    omega
  have hmc : epochMC batches = some 1 := by
    have hones : ∀ x ∈ batches.map (fun b => mcReal (accuracy b.1 b.2).2), x = some 1 := by
      intro x hx
      rcases List.mem_map.mp hx with ⟨b, hb, hxe⟩
      rw [← hxe]
      exact mcReal_eq_one (accuracy_all_correct b.1 b.2 (hcor b hb)
        (hcls b hb).1 (hcls b hb).2).2
    unfold epochMC
    rw [optAdd_fold_ones _ hones 0, List.length_map]
    show some ((0 + (batches.length : ℝ)) / (batches.length : ℝ)) = some 1
    congr 1
    rw [zero_add]
    exact div_self (by
      have hl : 0 < batches.length := List.length_pos.mpr hne
      exact_mod_cast Nat.pos_iff_ne_zero.mp hl)
  refine ⟨hEq, ?_, hmc, by rw [hmc]; rfl⟩
  unfold epochAccuracy
  rw [hEq]
  exact div_self (by exact_mod_cast Nat.pos_iff_ne_zero.mp hexpos)

theorem C9_all_correct_witness :
    [([((0 : ℚ), (1 : ℚ)), ((1 : ℚ), (0 : ℚ))], [(1 : ℤ), 0])] ≠
      ([] : List (List (ℚ × ℚ) × List ℤ)) ∧
    epochCorrect [([((0 : ℚ), (1 : ℚ)), ((1 : ℚ), (0 : ℚ))], [(1 : ℤ), 0])] =
      epochExamples [([((0 : ℚ), (1 : ℚ)), ((1 : ℚ), (0 : ℚ))], [(1 : ℤ), 0])] :=
  ⟨by simp,
   (C9_all_correct [([((0 : ℚ), (1 : ℚ)), ((1 : ℚ), (0 : ℚ))], [(1 : ℤ), 0])]
     (by simp)
     (by
       intro b hb
       rw [List.mem_singleton] at hb
       subst hb
       norm_num [predsOf])
     (by
       intro b hb
       rw [List.mem_singleton] at hb
       subst hb
       norm_num)).1⟩

/-- C9 counterexample: an epoch whose only batch has its only example labeled
0 and predicted correctly — the reported accuracy is 1, but the batch's
Matthews numerator and squared denominator are both 0, so the batch value is
0/0 = NaN, the epoch mean is NaN, and the reported (sanitized) correlation is
0, which is not 1.0. -/
theorem C9_single_class_nan :
    epochAccuracy [([((1 : ℚ), (0 : ℚ))], [(0 : ℤ)])] = 1 ∧
    epochMC [([((1 : ℚ), (0 : ℚ))], [(0 : ℤ)])] = none ∧
    sanitizeMCReal (epochMC [([((1 : ℚ), (0 : ℚ))], [(0 : ℤ)])]) = 0 ∧
    (0 : ℝ) ≠ 1 := by
  have hacc : accuracy [((1 : ℚ), (0 : ℚ))] [(0 : ℤ)] = (1, (0, 0)) := by
    unfold accuracy predsOf nCorrect tpOf tnOf fpOf fnOf
    norm_num
  have hnan : mcReal (accuracy [((1 : ℚ), (0 : ℚ))] [(0 : ℤ)]).2 = none := by
    rw [hacc]
    unfold mcReal
    rw [if_pos rfl]
  have hmc : epochMC [([((1 : ℚ), (0 : ℚ))], [(0 : ℤ)])] = none := by
    unfold epochMC
    rw [List.map_cons, List.map_nil, hnan]
    rfl
  refine ⟨?_, hmc, by rw [hmc]; rfl, by norm_num⟩
  unfold epochAccuracy epochCorrect epochExamples
  rw [List.map_cons, List.map_nil, List.map_cons, List.map_nil, hacc]
  norm_num

/-! ## Failure-condition facts (C8) -/

/-- C8 (amended): the multi-head reshape fails exactly when the element count
differs from `12*64*768`; there is no explicit keep-ratio check — instead the
bottom-k selection fails exactly when `k = int((1-r)*dim)` falls outside
`[0, dim]`.  Every keepRatio in `(0,1]` therefore succeeds, but the
InvalidRatio condition does not coincide with `(0,1]` (see the
counterexample: keepRatio 0 succeeds too). -/
theorem C8_failure_conditions {d1 d2 : ℕ} (w : Mat d1 d2) (r : ℚ)
    (hr0 : 0 < r) (hr1 : r ≤ 1) :
    do_sparse_checked w (1 - r) = Except.ok (do_sparse w (1 - r)) ∧
    do_sparse_chn_checked w (1 - r) = Except.ok (do_sparse_chn w (1 - r)) ∧
    (∀ v : Mat 768 768,
      do_sparse_mh_checked v (1 - r) none = Except.ok (do_sparse_mh v (1 - r) none)) ∧
    (d1 * d2 ≠ 12 * (64 * 768) → ∀ (ratio : ℚ) (idc : Option (Fin 12 → Fin 49152 → Bool)),
      do_sparse_mh_checked w ratio idc = Except.error PruneErr.shapeMismatch) ∧
    (∀ ratio : ℚ, do_sparse_checked w ratio = Except.error PruneErr.invalidK ↔
      ¬ (0 ≤ kOf ratio (d1 * d2) ∧ kOf ratio (d1 * d2) ≤ ((d1 * d2 : ℕ) : ℤ))) := by
  have h10 : (0:ℚ) ≤ 1 - r := by linarith
  have h11 : 1 - r < 1 := by linarith
  refine ⟨?_, ?_, ?_, ?_, ?_⟩
  · unfold do_sparse_checked
    rw [if_pos ⟨kOf_nonneg (d1 * d2) h10, kOf_le (d1 * d2) h10 h11⟩]
  · unfold do_sparse_chn_checked
    rw [if_pos ⟨kOf_nonneg d1 h10, kOf_le d1 h10 h11⟩]
  · intro v
    unfold do_sparse_mh_checked
    rw [dif_pos (show (768 : ℕ) * 768 = 12 * (64 * 768) by norm_num)]
    show (if 0 ≤ kOf (1 - r) 12 ∧ kOf (1 - r) 12 ≤ ((12 : ℕ) : ℤ) then
        Except.ok (fromMH (mhMask (mhSel (toMH v) ((kOf (1 - r) 12).toNat)) (toMH v)),
          mhSel (toMH v) ((kOf (1 - r) 12).toNat))
      else Except.error PruneErr.invalidK) = Except.ok (do_sparse_mh v (1 - r) none)
    rw [if_pos ⟨kOf_nonneg 12 h10, kOf_le 12 h10 h11⟩]
    rfl
  · intro hne ratio idc
    unfold do_sparse_mh_checked
    rw [dif_neg hne]
  · intro ratio
    unfold do_sparse_checked
    by_cases hc : 0 ≤ kOf ratio (d1 * d2) ∧ kOf ratio (d1 * d2) ≤ ((d1 * d2 : ℕ) : ℤ)
    · rw [if_pos hc]
      exact iff_of_false (fun he => Except.noConfusion he) (fun hn => hn hc)
    · rw [if_neg hc]
      exact iff_of_true rfl hc

theorem C8_failure_conditions_witness :
    (0:ℚ) < 1/2 ∧ (1/2:ℚ) ≤ 1 ∧
    do_sparse_checked (fun _ _ => (1:ℚ) : Mat 1 1) (1 - (1/2)) =
      Except.ok (do_sparse (fun _ _ => (1:ℚ) : Mat 1 1) (1 - (1/2))) :=
  ⟨by norm_num, by norm_num,
    (@C8_failure_conditions 1 1 (fun _ _ => 1) (1/2) (by norm_num) (by norm_num)).1⟩

/-- C8 counterexample: keepRatio 0 lies outside (0,1], but the Vanilla engine
call succeeds rather than failing with InvalidRatio — `k = int(1.0 * numel)`
equals the dimension size, which `topk` accepts (it zeroes everything). -/
theorem C8_keep_zero_succeeds :
    ¬ (0 < (0 : ℚ)) ∧
    (do_sparse_checked (fun _ _ => (1 : ℚ) : Mat 1 1) (1 - 0)).toOption.isSome = true := by
  refine ⟨by norm_num, ?_⟩
  unfold do_sparse_checked
  rw [if_pos]
  · rfl
  · constructor
    · rw [kOf_eq_floor (1 * 1) (by norm_num)]
      norm_num
    · rw [kOf_eq_floor (1 * 1) (by norm_num)]
      norm_num

/-! ## Deep-copy frame property (C10) -/

theorem fold_write_preserves {α : Type} [Inhabited α] (m r : ℕ) (hne : r ≠ m)
    (steps : List (α → α)) :
    ∀ hh : PHeap α,
      readRefD (steps.foldl (fun hh2 f => writeRef hh2 m (f (readRefD hh2 m))) hh) r =
        readRefD hh r := by
  induction steps with
  | nil => intro hh; rfl
  | cons f t ih =>
    intro hh
    rw [List.foldl_cons, ih]
    unfold readRefD writeRef
    rw [List.getD_eq_getElem?_getD, List.getD_eq_getElem?_getD,
      List.getElem?_set_ne (Ne.symm hne), List.getD_eq_getElem?_getD]

/-- C10: `eval_after_train` operates on `copy.deepcopy(self.model)` and every
training-step mutation targets the copy, so the value stored at `self.model`
is unchanged by the whole run, whatever the steps do. -/
theorem C10_deepcopy {α : Type} [Inhabited α] (h : PHeap α) (selfModel : ℕ)
    (steps : List (α → α)) (hvalid : selfModel < h.store.length) :
    readRefD (eval_after_train_model h selfModel steps).1 selfModel =
      readRefD h selfModel := by
  have hne : selfModel ≠ h.store.length := Nat.ne_of_lt hvalid
  show readRefD (steps.foldl
      (fun hh2 f => writeRef hh2 h.store.length (f (readRefD hh2 h.store.length)))
      ⟨h.store ++ [readRefD h selfModel]⟩) selfModel = readRefD h selfModel
  rw [fold_write_preserves h.store.length selfModel hne steps]
  unfold readRefD
  show (h.store ++ [h.store.getD selfModel default]).getD selfModel default =
    h.store.getD selfModel default
  rw [List.getD_eq_getElem?_getD, List.getD_eq_getElem?_getD, List.getElem?_append,
    if_pos hvalid]

theorem C10_deepcopy_witness :
    0 < (PHeap.mk [(5 : ℚ)]).store.length ∧
    readRefD (eval_after_train_model (PHeap.mk [(5 : ℚ)]) 0 [fun x => x + 1]).1 0 =
      readRefD (PHeap.mk [(5 : ℚ)]) 0 :=
  ⟨by norm_num, C10_deepcopy (PHeap.mk [(5 : ℚ)]) 0 [fun x => x + 1] (by norm_num)⟩

/-! ## The slot-3 traversal bug (C2) -/

theorem pruneSlot0_outp (pt : ℕ → String) (pr : ℕ → ℚ) (l : ℕ) (m : LayerMats) :
    (pruneSlot0 pt pr l m).outp = m.outp := by
  unfold pruneSlot0
  split_ifs <;> rfl

theorem pruneSlot1_outp (pt : ℕ → String) (pr : ℕ → ℚ) (l : ℕ) (m : LayerMats) :
    (pruneSlot1 pt pr l m).outp = m.outp := by
  unfold pruneSlot1
  split_ifs <;> rfl

theorem pruneSlot2_outp (pt : ℕ → String) (pr : ℕ → ℚ) (l : ℕ) (m : LayerMats) :
    (pruneSlot2 pt pr l m).outp = m.outp := by
  unfold pruneSlot2
  split_ifs <;> rfl

theorem pruneSlot3_outp_channel (pt : ℕ → String) (pr : ℕ → ℚ) (l : ℕ) (m : LayerMats)
    (h : pt (l * 4 + 3) = "channel") : (pruneSlot3 pt pr l m).outp = m.outp := by
  unfold pruneSlot3
  rw [h, if_neg (by decide), if_neg (by decide)]

theorem chn_zero_row_ones :
    do_sparse_chn (fun _ _ => (1:ℚ) : Mat 768 3072) (1 - (1/2 : ℚ)) 0 0 = 0 := by
  apply do_sparse_chn_sel
  show bottomSel (absRowSum (fun _ _ => (1:ℚ) : Mat 768 3072)) Fin.val
    ((kOf (1 - (1/2 : ℚ)) 768).toNat) (0 : Fin 768)
  have hsum : ∀ i : Fin 768, absRowSum (fun _ _ => (1:ℚ) : Mat 768 3072) i = 3072 := by
    intro i
    unfold absRowSum
    rw [Finset.sum_congr rfl (fun j _ => abs_one), Finset.sum_const, Finset.card_univ,
      Fintype.card_fin, nsmul_eq_mul, mul_one]
    norm_num
  have hk : (kOf (1 - (1/2 : ℚ)) 768).toNat = 384 := by
    rw [kOf_eq_floor 768 (by norm_num)]
    have hfl : ⌊(1 - (1/2 : ℚ)) * ((768 : ℕ) : ℚ)⌋ = 384 := by norm_num
    rw [hfl]
    rfl
  unfold bottomSel
  rw [hk]
  have hrank : rank (absRowSum (fun _ _ => (1:ℚ) : Mat 768 3072)) Fin.val (0 : Fin 768)
      = 0 := by
    unfold rank
    rw [Finset.card_eq_zero]
    apply Finset.filter_eq_empty_iff.mpr
    intro i _
    unfold keyLt
    rw [hsum, hsum]
    rintro (hlt | ⟨_, hv⟩)
    · exact lt_irrefl _ hlt
    · simp at hv
  rw [hrank]
  norm_num

/-- C2 at the failing input: when a slot-3 prune type is the string
"channel", the per-step traversal leaves the output projection untouched —
line 955 compares slot 3's type against "chn", which "channel" never equals,
unlike slots 0-2 which compare against "channel" — whereas Channel pruning at
keepRatio 1/2 would have zeroed, e.g., entry (0,0) of the all-ones output
projection (its value 1 becomes 0). -/
theorem C2_slot3_channel_skipped :
    (∀ (pt : ℕ → String) (pr : ℕ → ℚ) (l : ℕ) (m : LayerMats),
        pt (l * 4 + 3) = "channel" → (pruneLayerStep pt pr l m).outp = m.outp)
    ∧ do_sparse_chn (fun _ _ => (1:ℚ) : Mat 768 3072) (1 - (1/2 : ℚ)) 0 0 = 0
    ∧ (1 : ℚ) ≠ 0 := by
  refine ⟨?_, chn_zero_row_ones, one_ne_zero⟩
  intro pt pr l m h
  unfold pruneLayerStep
  rw [pruneSlot3_outp_channel _ _ _ _ h, pruneSlot2_outp, pruneSlot1_outp, pruneSlot0_outp]

theorem C2_slot3_channel_skipped_witness :
    ((fun _ : ℕ => "channel") (0 * 4 + 3) = "channel") ∧
    (pruneLayerStep (fun _ => "channel") (fun _ => (1/2 : ℚ)) 0
        ⟨fun _ _ => 1, fun _ _ => 1, fun _ _ => 1, fun _ _ => 1,
         fun _ _ => 1, fun _ _ => 1⟩).outp =
      (⟨fun _ _ => 1, fun _ _ => 1, fun _ _ => 1, fun _ _ => 1,
         fun _ _ => 1, fun _ _ => 1⟩ : LayerMats).outp :=
  ⟨rfl, C2_slot3_channel_skipped.1 (fun _ => "channel") (fun _ => (1/2 : ℚ)) 0
    ⟨fun _ _ => 1, fun _ _ => 1, fun _ _ => 1, fun _ _ => 1,
     fun _ _ => 1, fun _ _ => 1⟩ rfl⟩
